import Mathlib

/-!
Latte-Dock settings: the views controller.

A shallow embedding of `Latte::Settings::Controller::Views`
(`src/app/settings/viewsdialog/viewscontroller.cpp`) and proofs about it.

A `QString` is embedded as the list of its characters; positions and lengths
count list elements, as `QString` counts its code units.
-/

namespace Latte

/-- A `QString`, as the list of its characters. -/
abbrev QString := List Char

/-- The text of `QString::number(i)` for a non-negative `int`: decimal digits. -/
def number (i : Nat) : QString := Nat.toDigits 10 i

/-- The literal `" - "` that `uniqueViewName` puts between a name and its counter. -/
def separator : QString := [' ', '-', ' ']

/-- Whether the pattern `" - [0-9]+"` of `uniqueViewName` matches at the
head of `s`: a blank, a dash, a blank and at least one decimal digit. -/
def matchesHere : QString → Bool
  | ' ' :: '-' :: ' ' :: c :: _ => c.isDigit
  | _ => false

/-- The scan behind `QString::lastIndexOf(QRegExp(" - [0-9]+"))`: `s` is the
part of the string from position `p` on; the result is the greatest position
at which the pattern matches, or `-1` when it matches nowhere. -/
def lastIndexFrom : QString → Nat → Int
  | [], _ => -1
  | c :: cs, p =>
    let later := lastIndexFrom cs (p + 1)
    if 0 ≤ later then later
    else if matchesHere (c :: cs) then (p : Int) else -1

/-- `name.lastIndexOf(QRegExp(QString(" - [0-9]+")))`. -/
def lastIndexOf (name : QString) : Int := lastIndexFrom name 0

/-- `QString::left(n)`: the first `n` characters, and the whole string when `n`
is negative or not less than its length. -/
def left (name : QString) (n : Int) : QString :=
  if n < 0 then name else name.take n.toNat

/-- Modelled from the spec: `Model::Views::containsCurrentName`, whose code is in
`viewsmodel.cpp`; it tells whether some row of the current table has the
name. The table is given by the names of its rows. -/
def containsCurrentName (names : List QString) (name : QString) : Bool :=
  names.contains name

/-- The `while` loop of `Views::uniqueViewName`. One unit of `fuel` pays for one
test of the loop condition; `none` means the fuel ran out. -/
def uniqueLoop (names : List QString) (namePart : QString) :
    Nat → Nat → QString → Option QString
  | 0, _, _ => none
  | fuel + 1, i, name =>
    if containsCurrentName names name then
      uniqueLoop names namePart fuel (i + 1) (namePart ++ separator ++ number i)
    else some name

/-- `Views::uniqueViewName(name)` against a table with the given names, with
`fuel` tests of the loop condition allowed. -/
def uniqueViewNameFuel (fuel : Nat) (names : List QString) (name : QString) :
    Option QString :=
  if name.isEmpty then some name
  else
    let pos_ := lastIndexOf name
    let name1 := if containsCurrentName names name && decide (0 < pos_) then left name pos_ else name
    uniqueLoop names name1 fuel 2 name1

/-- `Views::uniqueViewName(name)`: the loop tests its condition at most once per
name of the table and once more, so that much fuel is given. -/
def uniqueViewName (names : List QString) (name : QString) : Option QString :=
  uniqueViewNameFuel (names.length + 1) names name

/-- The name that the loop of `uniqueViewName` starts from and builds on
(`namePart`) when the given name is in the table: the name cut at the last
match of `" - [0-9]+"`, unless there is none or it is at position 0. -/
def baseName (name : QString) : QString :=
  if 0 < lastIndexOf name then left name (lastIndexOf name) else name

/-! ## The data model -/

/-- Modelled from the spec: the `state` tag of `Data::View` (declared in
`viewdata.h`): `IsCreated` is a persisted view, the two `Origin...` states are
pending additions, `IsNew` is the uninitialised state. -/
inductive State
  | IsNew
  | IsCreated
  | OriginFromViewTemplate
  | OriginFromLayout
  deriving DecidableEq, Repr

/-- Modelled from the spec: `Data::View` (declared in `viewdata.h`), with the
attributes the controller reads and writes. `originFile`, `originLayout` and
`originView` are the three texts that `setState` stores beside the state. -/
structure View where
  id : QString
  name : QString
  isActive : Bool
  isMoveOrigin : Bool
  state : State
  originFile : QString
  originLayout : QString
  originView : QString
  deriving DecidableEq, Repr

/-- A default-constructed `Data::View`. -/
instance : Inhabited View :=
  ⟨{ id := [], name := [], isActive := false, isMoveOrigin := false, state := State.IsNew,
     originFile := [], originLayout := [], originView := [] }⟩

/-- Modelled from the spec: `Data::View::setState(state, file, layout, view)`. -/
def View.setState (v : View) (st : State) (file layout view : QString) : View :=
  { v with state := st, originFile := file, originLayout := layout, originView := view }

/-- `Data::ViewsTable`: the rows in table order. -/
abbrev ViewsTable := List View

/-- Modelled from the spec: `ViewsTable::containsId`. -/
def containsId (t : ViewsTable) (vid : QString) : Bool := t.any (fun r => r.id == vid)

/-- Modelled from the spec: `ViewsTable::subtracted`, the set difference by id:
the rows of `t` whose id is not an id of `rhs`. -/
def subtracted (t rhs : ViewsTable) : ViewsTable := t.filter (fun r => !containsId rhs r.id)

/-- The names of the rows of a table. -/
def currentNames (t : ViewsTable) : List QString := t.map View.name

/-- Modelled from the spec: `Model::Views::currentData(id)`, the current row
with that id (a default view when there is none). -/
def currentData (t : ViewsTable) (vid : QString) : View :=
  (t.find? (fun r => r.id == vid)).getD default

/-- Modelled from the spec: `Model::Views::removeView(id)`, which takes the row
with that id out of the current table. -/
def removeView (t : ViewsTable) (vid : QString) : ViewsTable :=
  t.filter (fun r => !(r.id == vid))

/-- The scan of `rowForId`, as `Views::rowForId` does it: the first row from
position `i` on that has the id, or `-1`. -/
def rowForIdFrom (vid : QString) : ViewsTable → Nat → Int
  | [], _ => -1
  | r :: rs, i => if r.id = vid then (i : Int) else rowForIdFrom vid rs (i + 1)

/-- Modelled from the spec: `Model::Views::rowForId(id)`. -/
def rowForId (t : ViewsTable) (vid : QString) : Int := rowForIdFrom vid t 0

/-- `qBound(min, val, max)` of Qt 5: `qMax(min, qMin(max, val))`. -/
def qBound (lo val hi : Int) : Int := max lo (min hi val)

/-- The collaborators of the controller that the operations below ask.
`layoutId` is `m_handler->currentData().id`; `storedView` is
`templatesKeeper()->storedView(layoutId, viewId)`; `tempId` is the id that
`Model::Views::appendTemporaryView` gives the row it appends. -/
structure Env where
  layoutId : QString
  storedView : QString → QString → QString
  tempId : ViewsTable → View → QString

/-- The state the controller works on: the original and the current table of
the model, the ids of the selected rows in the order `selectedRows` lists
them, and the clipboard contents kept by the Templates Keeper. -/
structure Views where
  original : ViewsTable
  current : ViewsTable
  selection : List QString
  clipboard : ViewsTable

/-- Modelled from the spec: `Model::Views::appendTemporaryView(view)`, which
appends the view as a new row under a temporary id. -/
def appendTemporaryView (env : Env) (t : ViewsTable) (view : View) : ViewsTable :=
  t ++ [{ view with id := env.tempId t view }]

/-! ## The controller -/

/-- `Views::hasSelectedView`. -/
def hasSelectedView (d : Views) : Bool := !d.selection.isEmpty

/-- `Views::selectedViewsCurrentData`. -/
def selectedViewsCurrentData (d : Views) : ViewsTable :=
  if !hasSelectedView d then [] else d.selection.map (currentData d.current)

/-- `Views::appendViewFromViewTemplate`: the view it returns and the table
after the append. -/
def appendViewFromViewTemplate (env : Env) (t : ViewsTable) (view : View) :
    Option (View × ViewsTable) :=
  match uniqueViewName (currentNames t) view.name with
  | none => none
  | some n =>
    let newview : View := { view with name := n }
    some (newview, appendTemporaryView env t newview)

/-- One round of the loop of `Views::selectedViewsForClipboard`. -/
def clipboardStep (env : Env) (clipboardviews : ViewsTable) (row : View) : ViewsTable :=
  if row.state = State.IsCreated then
    let storedviewpath := env.storedView env.layoutId row.id
    let copiedview := row.setState State.OriginFromLayout storedviewpath env.layoutId row.id
    clipboardviews ++ [{ copiedview with isActive := false }]
  else if row.state = State.OriginFromViewTemplate ∨ row.state = State.OriginFromLayout then
    clipboardviews ++ [{ row with isActive := false }]
  else clipboardviews

/-- `Views::selectedViewsForClipboard`. -/
def selectedViewsForClipboard (env : Env) (d : Views) : ViewsTable :=
  if !hasSelectedView d then []
  else (selectedViewsCurrentData d).foldl (clipboardStep env) []

/-- `Views::copySelectedViews`. -/
def copySelectedViews (env : Env) (d : Views) : Views :=
  if !hasSelectedView d then d
  else { d with clipboard := selectedViewsForClipboard env d }

/-- The loop of `Views::pasteSelectedViews` over the clipboard rows. -/
def pasteLoop (env : Env) : List View → ViewsTable → Option ViewsTable
  | [], t => some t
  | v :: vs, t =>
    match appendViewFromViewTemplate env t v with
    | none => none
    | some (_, t1) => pasteLoop env vs t1

/-- `Views::pasteSelectedViews`. -/
def pasteSelectedViews (env : Env) (d : Views) : Option Views :=
  match pasteLoop env d.clipboard d.current with
  | none => none
  | some t => some { d with current := t }

/-- The loop of `Views::duplicateSelectedViews` over the selected rows. -/
def duplicateLoop (env : Env) : List View → ViewsTable → Option ViewsTable
  | [], t => some t
  | row :: rows, t =>
    if row.state = State.IsCreated then
      let storedviewpath := env.storedView env.layoutId row.id
      let duplicatedview := row.setState State.OriginFromLayout storedviewpath env.layoutId row.id
      match appendViewFromViewTemplate env t { duplicatedview with isActive := false } with
      | none => none
      | some (_, t1) => duplicateLoop env rows t1
    else if row.state = State.OriginFromViewTemplate ∨ row.state = State.OriginFromLayout then
      match appendViewFromViewTemplate env t { row with isActive := false } with
      | none => none
      | some (_, t1) => duplicateLoop env rows t1
    else duplicateLoop env rows t

/-- `Views::duplicateSelectedViews`. -/
def duplicateSelectedViews (env : Env) (d : Views) : Option Views :=
  if !hasSelectedView d then some d
  else
    match duplicateLoop env (selectedViewsCurrentData d) d.current with
    | none => none
    | some t => some { d with current := t }

/-- The selection after `m_view->selectRow(row)`: the row, when the table has it. -/
def selectRow (t : ViewsTable) (row : Int) : List QString :=
  if row < 0 then [] else (t.get? row.toNat).toList.map View.id

/-- `Views::removeSelectedViews`: the state afterwards, and the row handed to
`m_view->selectRow` (`none` when there is no such call). -/
def removeSelectedViews (d : Views) : Views × Option Int :=
  if !hasSelectedView d then (d, none)
  else
    let selectedviews := selectedViewsCurrentData d
    let selectionheadrow := rowForId d.current (selectedviews.headD default).id
    let t := selectedviews.foldl (fun t v => removeView t v.id) d.current
    let row := qBound 0 selectionheadrow ((t.length : Int) - 1)
    ({ d with current := t, selection := selectRow t row }, some row)

/-- Modelled from the spec: `Model::Views::hasChangedData`, true when edits
are pending, that is when the current table is not the original one. -/
def hasChangedData (d : Views) : Bool := d.original != d.current

/-- `Views::viewsForRemovalCount`. -/
def viewsForRemovalCount (d : Views) : Int :=
  if !hasChangedData d then 0
  else
    let removedViews := subtracted d.original d.current
    (removedViews.length : Int)

/-! ## `Views::save` -/

/-- The calls that `Views::save` makes on its collaborators: `newView`,
`updateView` and `removeView` on the persisted-layout handle `central` (for
`newView`, with the view it answers), `syncActiveLayoutsToOriginalFiles` on
the synchronizer, `setOriginalView` and `removeView` on the model. -/
inductive Call
  | newView (arg response : View)
  | updateView (view : View)
  | removeView (view : View)
  | syncActiveLayoutsToOriginalFiles
  | setOriginalView (vid : QString) (view : View)
  | modelRemoveView (vid : QString)
  deriving DecidableEq, Repr

/-- A `QHash<QString, Data::View>`, as its entries. -/
abbrev QHash := List (QString × View)

/-- The assignment `hash[key] = value`. -/
def QHash.insert (h : QHash) (key : QString) (value : View) : QHash :=
  if h.any (fun e => e.1 == key) then h.map (fun e => if e.1 = key then (key, value) else e)
  else h ++ [(key, value)]

/-- The read `hash[key]`. -/
def QHash.value (h : QHash) (key : QString) : View :=
  ((h.find? (fun e => e.1 == key)).map Prod.snd).getD default

/-- The order in which `QHash::keys()` lists the keys is not fixed by Qt: it
is some rearrangement of the keys. -/
structure KeysOrder where
  order : List QString → List QString
  perm : ∀ l, (order l).Perm l

/-- `QHash::keys()`. -/
def QHash.keys (o : KeysOrder) (h : QHash) : List QString := o.order (h.map Prod.fst)

/-- What `Views::save` is given besides the tables: the answer of
`central->newView(view)`, which may depend on the calls made before, and the
order of `QHash::keys()`. -/
structure SaveEnv where
  newView : List Call → View → View
  keysOrder : KeysOrder

/-- Modelled from the spec: `Model::Views::newViews`, the rows of the current
table whose id is absent from the original table. -/
def newViews (original current : ViewsTable) : ViewsTable :=
  current.filter (fun r => !containsId original r.id)

/-- Modelled from the spec: `Model::Views::alteredViews`, the rows of the
current table whose id is in the original table too, with differing fields. -/
def alteredViews (original current : ViewsTable) : ViewsTable :=
  current.filter (fun r => containsId original r.id && decide (currentData original r.id ≠ r))

/-- The local state of `Views::save`: the calls made so far and its two hashes. -/
structure SaveState where
  calls : List Call
  newviewsresponses : QHash
  cuttedviews : QHash

/-- One round of the first loop of `save` ("add new views that are accepted"). -/
def saveNewView (env : SaveEnv) (s : SaveState) (row : View) : SaveState :=
  if row.isMoveOrigin then
    { s with cuttedviews := s.cuttedviews.insert row.id row }
  else if row.state = State.OriginFromViewTemplate then
    let addedview := env.newView s.calls row
    { s with
      calls := s.calls ++ [Call.newView row addedview]
      newviewsresponses := s.newviewsresponses.insert row.id addedview }
  else if row.state = State.OriginFromLayout then
    let adjustedview := row.setState State.OriginFromViewTemplate row.originFile [] []
    let addedview := env.newView s.calls adjustedview
    { s with
      calls := s.calls ++ [Call.newView adjustedview addedview]
      newviewsresponses := s.newviewsresponses.insert row.id addedview }
  else s

/-- One round of the second loop of `save` ("update altered views"). -/
def saveAlteredView (s : SaveState) (row : View) : SaveState :=
  let s1 : SaveState :=
    if row.state = State.IsCreated ∧ row.isMoveOrigin = false then
      { s with calls := s.calls ++ [Call.updateView row] }
    else s
  if row.isMoveOrigin then { s1 with cuttedviews := s1.cuttedviews.insert row.id row }
  else s1

/-- One round of the third loop of `save` (the removed views). -/
def saveRemovedView (s : SaveState) (row : View) : SaveState :=
  { s with calls := s.calls ++ [Call.removeView row] }

/-- One round of the fourth loop of `save` (the views removed by a cut). -/
def saveCuttedView (s : SaveState) (vid : QString) : SaveState :=
  if (s.cuttedviews.value vid).state = State.IsCreated then
    { s with calls := s.calls ++ [Call.removeView (s.cuttedviews.value vid)] }
  else s

/-- `Views::save`, from its first loop to the removal of the cut views from the
model (the calls it makes, in order, and its two hashes). Its last steps,
which make the current table the original one, refresh the active flags and
clear the Templates Keeper, are not part of this model. -/
def save (env : SaveEnv) (original current : ViewsTable) : SaveState :=
  let newViewsTable := newViews original current
  let s0 : SaveState := { calls := [], newviewsresponses := [], cuttedviews := [] }
  let s1 := newViewsTable.foldl (saveNewView env) s0
  let s2 := (alteredViews original current).foldl saveAlteredView s1
  let removedViews := subtracted original current
  let s3 := removedViews.foldl saveRemovedView s2
  let s4 := (s3.cuttedviews.keys env.keysOrder).foldl saveCuttedView s3
  let s5 : SaveState :=
    if 0 < removedViews.length ∨ 0 < newViewsTable.length then
      { s4 with calls := s4.calls ++ [Call.syncActiveLayoutsToOriginalFiles] }
    else s4
  let s6 : SaveState :=
    (s5.newviewsresponses.keys env.keysOrder).foldl
      (fun s vid => { s with calls := s.calls ++ [Call.setOriginalView vid (s.newviewsresponses.value vid)] })
      s5
  (s6.cuttedviews.keys env.keysOrder).foldl
    (fun s vid => { s with calls := s.calls ++ [Call.modelRemoveView vid] }) s6

/-- The order of `keys()` that lists the keys as they were inserted. -/
def insertionOrder : KeysOrder := ⟨fun l => l, fun l => List.Perm.refl l⟩

/-! ## The background picker (`backgroundcmbdelegate.cpp`) -/

/-- A `QComboBox`, as far as the delegate uses it: the texts of its items
and its current index (`-1` when no item is current). -/
structure QComboBox where
  items : List QString
  currentIndex : Int
  deriving DecidableEq, Repr

/-- A `QComboBox` as `new QComboBox(parent)` makes it. -/
def QComboBox.empty : QComboBox := { items := [], currentIndex := -1 }

/-- `QComboBox::addItem(icon, text)`: the item goes to the end; the first item
of a combo box that has no current item becomes the current one. -/
def QComboBox.addItem (cb : QComboBox) (text : QString) : QComboBox :=
  { items := cb.items ++ [text]
    currentIndex := if cb.items.isEmpty ∧ cb.currentIndex < 0 then 0 else cb.currentIndex }

/-- `QComboBox::setCurrentIndex(index)`: an index that is not the index of an
item leaves no item current. -/
def QComboBox.setCurrentIndex (cb : QComboBox) (index : Int) : QComboBox :=
  { cb with currentIndex := if 0 ≤ index ∧ index < (cb.items.length : Int) then index else -1 }

/-- `QComboBox::currentText()`: the text of the current item, and the empty
text when no item is current. -/
def QComboBox.currentText (cb : QComboBox) : QString :=
  if cb.currentIndex < 0 then [] else (cb.items.get? cb.currentIndex.toNat).getD []

/-- The scan of `QStringList::indexOf`: the first position from `i` on that
holds the value, or `-1`. -/
def indexOfFrom (value : QString) : List QString → Nat → Int
  | [], _ => -1
  | c :: cs, i => if c = value then (i : Int) else indexOfFrom value cs (i + 1)

/-- `Colors.indexOf(value)`. -/
def indexOf (colors : List QString) (value : QString) : Int := indexOfFrom value colors 0

/-- `value.startsWith("/")`. -/
def startsWithSlash (value : QString) : Bool :=
  match value with
  | c :: _ => c == '/'
  | [] => false

/-- The text `"sepia"`. -/
def sepia : QString := ['s', 'e', 'p', 'i', 'a']

/-- `BackgroundCmbBox::createEditor`, for the colour list `Colors` and the
value `value` of the cell. -/
def createEditor (colors : List QString) (value : QString) : QComboBox :=
  let editor := colors.foldl
    (fun editor color => if color ≠ sepia then editor.addItem color else editor)
    QComboBox.empty
  if startsWithSlash value then editor.addItem value else editor

/-- `BackgroundCmbBox::setEditorData`. -/
def setEditorData (colors : List QString) (comboBox : QComboBox) (value : QString) :
    QComboBox :=
  let pos := indexOf colors value
  if pos = -1 ∧ startsWithSlash value = true then
    comboBox.setCurrentIndex (colors.length : Int)
  else comboBox.setCurrentIndex (indexOf colors value)

/-- `BackgroundCmbBox::setModelData`: the value it writes to the cell. -/
def setModelData (comboBox : QComboBox) : QString := comboBox.currentText

/-- The round trip of a cell value through the editor: `createEditor`, then
`setEditorData`, then `setModelData` with the selection untouched. -/
def editorRoundTrip (colors : List QString) (value : QString) : QString :=
  setModelData (setEditorData colors (createEditor colors value) value)

/-! ## Definitions used in the proofs -/

/-- Reading a decimal text back: the accumulator step. -/
def readDigit (acc : Nat) (c : Char) : Nat := 10 * acc + (c.toNat - 48)

/-- The candidate name that the loop of `uniqueViewName` builds for counter `k`. -/
def candidate (namePart : QString) (k : Nat) : QString :=
  namePart ++ separator ++ number k

/-- The names that the loop tests, started at `namePart` with counter 2, in
its first `n + 1` tests. -/
def testedNames (namePart : QString) (n : Nat) : List QString :=
  namePart :: (List.range n).map (fun j => candidate namePart (j + 2))

/-- The view that the first loop of `save` hands to `newView` for a new row,
if any. -/
def instantiationArg (row : View) : Option View :=
  if row.isMoveOrigin then none
  else if row.state = State.OriginFromViewTemplate then some row
  else if row.state = State.OriginFromLayout then
    some (row.setState State.OriginFromViewTemplate row.originFile [] [])
  else none

/-- The `newView` calls of the first loop of `save` over `rows`, when `log`
is the list of the calls made before. -/
def newViewCalls (env : SaveEnv) : List Call → List View → List Call
  | _, [] => []
  | log, row :: rows =>
    match instantiationArg row with
    | none => newViewCalls env log rows
    | some a =>
      Call.newView a (env.newView log a) ::
        newViewCalls env (log ++ [Call.newView a (env.newView log a)]) rows

/-- The views handed to `newView`, in call order. -/
def newViewArgs (calls : List Call) : List View :=
  calls.filterMap (fun c => match c with | Call.newView a _ => some a | _ => none)

/-- The id of the view handed to each `newView` call, with the answer. -/
def responsePairs (calls : List Call) : QHash :=
  calls.filterMap (fun c => match c with | Call.newView a r => some (a.id, r) | _ => none)

/-- The views handed to `central->removeView`, in call order. -/
def removeViewArgs (calls : List Call) : List View :=
  calls.filterMap (fun c => match c with | Call.removeView v => some v | _ => none)

/-- The views handed to `central->updateView`, in call order. -/
def updateViewArgs (calls : List Call) : List View :=
  calls.filterMap (fun c => match c with | Call.updateView v => some v | _ => none)

/-- The rows flagged `isMoveOrigin`, each under its id. -/
def flaggedEntries (rows : List View) : QHash :=
  (rows.filter (fun r => r.isMoveOrigin)).map (fun r => (r.id, r))

/-- The assignments `hash[key] = value` for a list of entries, in order. -/
def insertAll (h : QHash) (es : List (QString × View)) : QHash :=
  es.foldl (fun h e => h.insert e.1 e.2) h

/-- The `removeView` calls of the fourth loop of `save`. -/
def cutRemovals (cv : QHash) (keys : List QString) : List Call :=
  keys.filterMap (fun k =>
    if (cv.value k).state = State.IsCreated then some (Call.removeView (cv.value k)) else none)

/-- The hash `cuttedviews` of `save` after its first two loops. -/
def savedCuttedViews (original current : ViewsTable) : QHash :=
  insertAll [] (flaggedEntries (newViews original current) ++
    flaggedEntries (alteredViews original current))

/-- The hash `newviewsresponses` of `save` after its first loop. -/
def savedResponses (env : SaveEnv) (original current : ViewsTable) : QHash :=
  insertAll [] (responsePairs (newViewCalls env [] (newViews original current)))

/-- The `syncActiveLayoutsToOriginalFiles` call of `save`, when it is made. -/
def syncCalls (original current : ViewsTable) : List Call :=
  if 0 < (subtracted original current).length ∨ 0 < (newViews original current).length then
    [Call.syncActiveLayoutsToOriginalFiles]
  else []

/-- A view named `name` with the given id and state, all else default. -/
def mkView (vid name : String) (st : State) : View :=
  { (default : View) with id := vid.toList, name := name.toList, state := st }

/-- Collaborators for the examples: the staged path of a view is its id, and
the temporary id of an appended row is `t` followed by the row count. -/
def exampleEnv : Env :=
  { layoutId := "L".toList
    storedView := fun _ vid => vid
    tempId := fun t _ => 't' :: number t.length }

/-- For the examples: `newView` answers with the view it is given, under the
id `v` followed by the number of calls made before; `keys()` lists the keys
as they were inserted. -/
def exampleSaveEnv : SaveEnv :=
  { newView := fun log view => { view with id := 'v' :: number log.length, state := State.IsCreated }
    keysOrder := insertionOrder }

/-- A table of six created views with the ids `0` to `5`. -/
def sixViews : ViewsTable :=
  [mkView "0" "a" State.IsCreated, mkView "1" "b" State.IsCreated,
    mkView "2" "c" State.IsCreated, mkView "3" "d" State.IsCreated,
    mkView "4" "e" State.IsCreated, mkView "5" "f" State.IsCreated]

/-- The table `sixViews` with the given selection. -/
def sixSelected (selection : List QString) : Views :=
  { original := [], current := sixViews, selection := selection, clipboard := [] }

/-- A table of one created view, which is selected. -/
def oneSelected : Views :=
  { original := [], current := [mkView "0" "a" State.IsCreated], selection := ["0".toList],
    clipboard := [] }

/-- A table of two views of which the first is selected, and a clipboard
that holds a copy of the second. -/
def twoViewsFirstSelected : Views :=
  { original := [], current := [mkView "1" "Dock" State.IsCreated,
      mkView "2" "Panel" State.OriginFromViewTemplate],
    selection := ["1".toList], clipboard := [mkView "2" "Panel" State.OriginFromViewTemplate] }

/-- An empty table with no selection, and a clipboard that holds one view. -/
def nothingSelected : Views :=
  { original := [], current := [], selection := [],
    clipboard := [mkView "2" "Panel" State.OriginFromViewTemplate] }

/-- An original table of three created views and a current table that keeps
the first, renamed, and has one new row from a view template. -/
def threeOriginalTwoCurrent : Views :=
  { original := [mkView "1" "A" State.IsCreated, mkView "2" "B" State.IsCreated,
      mkView "3" "C" State.IsCreated],
    current := [mkView "1" "A2" State.IsCreated, mkView "t1" "D" State.OriginFromViewTemplate],
    selection := ["1".toList, "t1".toList], clipboard := [] }

/-- A table with the one view `Dock`, and a clipboard of an unnamed view and a
view named `Dock`. -/
def dockAndUnnamedClipboard : Views :=
  { original := [], current := [mkView "1" "Dock" State.IsCreated], selection := [],
    clipboard := [mkView "2" "" State.OriginFromLayout, mkView "1" "Dock" State.OriginFromLayout] }

theorem readDigit_digitChar (acc k : Nat) (hk : k < 10) :
    readDigit acc (Nat.digitChar k) = 10 * acc + k := by
  unfold readDigit
  interval_cases k <;> rfl

theorem foldl_readDigit_toDigitsCore (fuel : Nat) :
    ∀ (n : Nat) (ds : List Char), n < fuel →
      List.foldl readDigit 0 (Nat.toDigitsCore 10 fuel n ds) = List.foldl readDigit n ds := by
  induction fuel with
  | zero => intro n ds h; omega
  | succ fuel ih =>
    intro n ds h
    unfold Nat.toDigitsCore
    by_cases h0 : n / 10 = 0
    · simp only [h0, if_true, List.foldl_cons]
      rw [readDigit_digitChar 0 (n % 10) (Nat.mod_lt _ (by decide))]
      congr 1
      omega
    · simp only [h0, if_false]
      rw [ih (n / 10) _ (by omega), List.foldl_cons,
        readDigit_digitChar (n / 10) (n % 10) (Nat.mod_lt _ (by decide))]
      congr 1
      omega

theorem number_injective : Function.Injective number := by
  intro a b h
  have ha := foldl_readDigit_toDigitsCore (a + 1) a [] (Nat.lt_succ_self a)
  have hb := foldl_readDigit_toDigitsCore (b + 1) b [] (Nat.lt_succ_self b)
  simp only [List.foldl_nil] at ha hb
  unfold number Nat.toDigits at h
  rw [← ha, ← hb, h]

theorem candidate_injective (namePart : QString) :
    Function.Injective (candidate namePart) := by
  intro a b h
  unfold candidate at h
  exact number_injective (List.append_cancel_left h)

theorem candidate_ne_namePart (namePart : QString) (k : Nat) :
    candidate namePart k ≠ namePart := by
  intro h
  have := congrArg List.length h
  simp [candidate, separator] at this

theorem candidate_ne_nil (namePart : QString) (k : Nat) :
    candidate namePart k ≠ [] := by
  simp [candidate, separator]

/-! ## Lemmas on the loop of `uniqueViewName` -/

theorem containsCurrentName_iff (names : List QString) (name : QString) :
    containsCurrentName names name = true ↔ name ∈ names := by
  simp [containsCurrentName]

/-- What the loop returns, when it returns. -/
theorem uniqueLoop_some (names : List QString) (namePart : QString) :
    ∀ (fuel i : Nat) (name r : QString),
      uniqueLoop names namePart fuel i name = some r →
      (name ∉ names ∧ r = name) ∨
      (name ∈ names ∧ ∃ k, i ≤ k ∧ r = candidate namePart k ∧ r ∉ names ∧
        ∀ j, i ≤ j → j < k → candidate namePart j ∈ names) := by
  intro fuel
  induction fuel with
  | zero => intro i name r h; simp [uniqueLoop] at h
  | succ fuel ih =>
    intro i name r h
    unfold uniqueLoop at h
    by_cases hc : containsCurrentName names name = true
    · rw [if_pos hc] at h
      have hmem := (containsCurrentName_iff names name).1 hc
      right
      refine ⟨hmem, ?_⟩
      rcases ih (i + 1) _ r h with ⟨hn, hr⟩ | ⟨hin, k, hk, hr, hrn, hall⟩
      · refine ⟨i, le_refl i, hr, hr ▸ hn, ?_⟩
        intro j h1 h2; omega
      · refine ⟨k, by omega, hr, hrn, ?_⟩
        intro j h1 h2
        by_cases hj : j = i
        · subst hj; exact hin
        · exact hall j (by omega) h2
    · rw [if_neg hc] at h
      left
      have hn : name ∉ names := fun hm => hc ((containsCurrentName_iff names name).2 hm)
      exact ⟨hn, (Option.some.inj h).symm⟩

/-- When the loop runs out of fuel, every name it tested is in the table. -/
theorem uniqueLoop_none (names : List QString) (namePart : QString) :
    ∀ (fuel i : Nat) (name : QString),
      uniqueLoop names namePart fuel i name = none →
      (0 < fuel → name ∈ names) ∧
      ∀ j, i ≤ j → j + 1 < i + fuel → candidate namePart j ∈ names := by
  intro fuel
  induction fuel with
  | zero => intro i name _; exact ⟨fun h => absurd h (by decide), fun j h1 h2 => by omega⟩
  | succ fuel ih =>
    intro i name h
    unfold uniqueLoop at h
    by_cases hc : containsCurrentName names name = true
    · rw [if_pos hc] at h
      have hmem := (containsCurrentName_iff names name).1 hc
      obtain ⟨h0, hall⟩ := ih (i + 1) _ h
      refine ⟨fun _ => hmem, ?_⟩
      intro j h1 h2
      by_cases hj : j = i
      · subst hj; exact h0 (by omega)
      · exact hall j (by omega) (by omega)
    · rw [if_neg hc] at h
      exact absurd h (by simp)

theorem testedNames_nodup (namePart : QString) (n : Nat) :
    (testedNames namePart n).Nodup := by
  unfold testedNames
  rw [List.nodup_cons]
  constructor
  · intro h
    rw [List.mem_map] at h
    obtain ⟨j, _, hj⟩ := h
    exact candidate_ne_namePart namePart (j + 2) hj
  · refine List.Nodup.map ?_ (List.nodup_range n)
    intro a b h
    have := candidate_injective namePart h
    omega

/-- With more fuel than the table has names, the loop started at `namePart`
returns. -/
theorem uniqueLoop_isSome (names : List QString) (namePart : QString) (fuel : Nat)
    (hf : names.length < fuel) :
    ∃ r, uniqueLoop names namePart fuel 2 namePart = some r := by
  cases h : uniqueLoop names namePart fuel 2 namePart with
  | some r => exact ⟨r, rfl⟩
  | none =>
    exfalso
    obtain ⟨h0, hall⟩ := uniqueLoop_none names namePart fuel 2 namePart h
    have hsub : testedNames namePart (fuel - 1) ⊆ names := by
      intro x hx
      unfold testedNames at hx
      rcases List.mem_cons.1 hx with rfl | hx
      · exact h0 (by omega)
      · rw [List.mem_map] at hx
        obtain ⟨j, hj, rfl⟩ := hx
        rw [List.mem_range] at hj
        exact hall (j + 2) (by omega) (by omega)
    have hlen := (List.subperm_of_subset (testedNames_nodup namePart (fuel - 1)) hsub).length_le
    simp [testedNames] at hlen
    omega

/-- The counter of the loop stays small: when the names for all counters from
2 up to `k` are in the table, and `namePart` too, `k` is at most the number of
names of the table. -/
theorem counter_le_length (names : List QString) (namePart : QString) (k : Nat)
    (hk : 2 ≤ k) (hb : namePart ∈ names)
    (hall : ∀ j, 2 ≤ j → j < k → candidate namePart j ∈ names) :
    k ≤ names.length + 1 := by
  have hsub : testedNames namePart (k - 2) ⊆ names := by
    intro x hx
    unfold testedNames at hx
    rcases List.mem_cons.1 hx with rfl | hx
    · exact hb
    · rw [List.mem_map] at hx
      obtain ⟨j, hj, rfl⟩ := hx
      rw [List.mem_range] at hj
      exact hall (j + 2) (by omega) (by omega)
  have hlen := (List.subperm_of_subset (testedNames_nodup namePart (k - 2)) hsub).length_le
  simp [testedNames] at hlen
  omega

/-! ## Lemmas on `lastIndexOf` -/

theorem lastIndexFrom_range (s : QString) :
    ∀ p : Nat, lastIndexFrom s p = -1 ∨
      ((p : Int) ≤ lastIndexFrom s p ∧ lastIndexFrom s p < (p : Int) + s.length) := by
  induction s with
  | nil => intro p; left; rfl
  | cons c cs ih =>
    intro p
    unfold lastIndexFrom
    simp only [List.length_cons]
    rcases ih (p + 1) with h | ⟨h1, h2⟩
    · rw [h]
      by_cases hm : matchesHere (c :: cs) = true
      · right; simp [hm]
      · left; simp [hm]
    · right
      have h0 : (0 : Int) ≤ lastIndexFrom cs (p + 1) := by omega
      simp only [h0, if_true]
      push_cast at h1 h2 ⊢
      omega

theorem lastIndexOf_lt_length (name : QString) : lastIndexOf name < (name.length : Int) := by
  unfold lastIndexOf
  rcases lastIndexFrom_range name 0 with h | ⟨_, h⟩
  · rw [h]; omega
  · simpa using h

theorem left_length_lt (name : QString) (h : 0 < lastIndexOf name) :
    0 < (left name (lastIndexOf name)).length ∧
      (left name (lastIndexOf name)).length < name.length := by
  have hlt := lastIndexOf_lt_length name
  unfold left
  rw [if_neg (by omega), List.length_take]
  omega

theorem baseName_ne_nil (name : QString) (h : name ≠ []) : baseName name ≠ [] := by
  unfold baseName
  by_cases hp : 0 < lastIndexOf name
  · rw [if_pos hp]
    intro h0
    have := (left_length_lt name hp).1
    rw [h0] at this
    simp at this
  · rw [if_neg hp]; exact h

theorem lastIndexFrom_none (s : QString) :
    (∀ q, matchesHere (s.drop q) = false) → ∀ p, lastIndexFrom s p = -1 := by
  induction s with
  | nil => intro _ p; rfl
  | cons c cs ih =>
    intro h p
    unfold lastIndexFrom
    have h1 := ih (fun q => by simpa using h (q + 1)) (p + 1)
    have h0 := h 0
    simp only [List.drop_zero] at h0
    simp [h1, h0]

theorem lastIndexFrom_at (s : QString) :
    ∀ (q p : Nat), matchesHere (s.drop q) = true →
      (∀ q2, q < q2 → matchesHere (s.drop q2) = false) →
      lastIndexFrom s p = ((p + q : Nat) : Int) := by
  induction s with
  | nil => intro q p h _; simp [matchesHere] at h
  | cons c cs ih =>
    intro q p h hlater
    unfold lastIndexFrom
    cases q with
    | zero =>
      have h1 := lastIndexFrom_none cs (fun q => by simpa using hlater (q + 1) (by omega)) (p + 1)
      simp only [List.drop_zero] at h
      simp [h1, h]
    | succ q =>
      have h1 := ih q (p + 1) (by simpa using h)
        (fun q2 hq => by simpa using hlater (q2 + 1) (by omega))
      rw [h1]
      have : (0 : Int) ≤ ((p + 1 + q : Nat) : Int) := Int.natCast_nonneg _
      simp only [this, if_true]
      congr 1
      omega

theorem matchesHere_iff (s : QString) :
    matchesHere s = true ↔
      ∃ c rest, s = ' ' :: '-' :: ' ' :: c :: rest ∧ c.isDigit = true := by
  unfold matchesHere
  split
  · rename_i c rest
    constructor
    · intro h; exact ⟨c, rest, rfl, h⟩
    · rintro ⟨c2, rest2, heq, h⟩
      simp only [List.cons.injEq, true_and] at heq
      rw [heq.1]; exact h
  · rename_i hno
    constructor
    · intro h; exact absurd h (by simp)
    · rintro ⟨c2, rest2, heq, _⟩
      exact absurd heq (hno c2 rest2)

theorem matchesHere_false_of_head (c : Char) (cs : QString) (hc : c ≠ ' ') :
    matchesHere (c :: cs) = false := by
  rw [Bool.eq_false_iff]
  intro h
  obtain ⟨_, _, heq, _⟩ := (matchesHere_iff _).1 h
  simp only [List.cons.injEq] at heq
  exact hc heq.1

theorem matchesHere_false_of_second (c d : Char) (cs : QString) (hd : d ≠ '-') :
    matchesHere (c :: d :: cs) = false := by
  rw [Bool.eq_false_iff]
  intro h
  obtain ⟨_, _, heq, _⟩ := (matchesHere_iff _).1 h
  simp only [List.cons.injEq] at heq
  exact hd heq.2.1

theorem matchesHere_digits (ds : QString) (hd : ∀ c ∈ ds, c.isDigit = true) :
    matchesHere ds = false := by
  match ds, hd with
  | [], _ => rfl
  | c :: cs, hd =>
    have hc := hd c (List.mem_cons_self _ _)
    exact matchesHere_false_of_head c cs (by rintro rfl; revert hc; decide)

/-- On a name that ends in `" - "` and digits, `lastIndexOf` finds the place
where that suffix starts. -/
theorem lastIndexOf_suffix (b ds : QString) (hds : ds ≠ [])
    (hd : ∀ c ∈ ds, c.isDigit = true) :
    lastIndexOf (b ++ separator ++ ds) = (b.length : Int) := by
  unfold lastIndexOf
  rw [lastIndexFrom_at (b ++ separator ++ ds) b.length 0]
  · simp
  · rw [List.append_assoc, List.drop_left]
    match ds, hds, hd with
    | c :: cs, _, hd =>
      exact (matchesHere_iff _).2 ⟨c, cs, rfl, hd c (List.mem_cons_self _ _)⟩
  · intro q2 hq
    obtain ⟨d, rfl⟩ : ∃ d, q2 = b.length + (d + 1) := ⟨q2 - b.length - 1, by omega⟩
    rw [List.append_assoc, List.drop_append]
    match d with
    | 0 => exact matchesHere_false_of_head _ _ (by decide)
    | 1 =>
      simp only [separator, List.drop_succ_cons, List.drop_zero, List.cons_append,
        List.nil_append]
      match ds, hd with
      | [], _ => rfl
      | c1 :: cs, hd =>
        have hc := hd c1 (List.mem_cons_self _ _)
        exact matchesHere_false_of_second _ c1 cs (by rintro rfl; revert hc; decide)
    | d + 2 =>
      simp only [separator, List.drop_succ_cons, List.cons_append, List.nil_append]
      exact matchesHere_digits _ (fun c hc => hd c (List.mem_of_mem_drop hc))

theorem baseName_suffix (b ds : QString) (hb : b ≠ []) (hds : ds ≠ [])
    (hd : ∀ c ∈ ds, c.isDigit = true) :
    baseName (b ++ separator ++ ds) = b := by
  have hpos : 0 < b.length := List.length_pos.2 hb
  unfold baseName
  rw [lastIndexOf_suffix b ds hds hd]
  have : (0 : Int) < (b.length : Int) := by omega
  rw [if_pos this]
  unfold left
  rw [if_neg (by omega)]
  simp [List.append_assoc]

/-! ## `uniqueViewName` -/

theorem uniqueViewNameFuel_nil (fuel : Nat) (names : List QString) :
    uniqueViewNameFuel fuel names [] = some [] := rfl

theorem uniqueViewNameFuel_of_present (fuel : Nat) (names : List QString) (name : QString)
    (hne : name ≠ []) (hin : name ∈ names) :
    uniqueViewNameFuel fuel names name =
      uniqueLoop names (baseName name) fuel 2 (baseName name) := by
  have hE : name.isEmpty = false := by
    cases name with
    | nil => exact absurd rfl hne
    | cons _ _ => rfl
  have hc := (containsCurrentName_iff names name).2 hin
  unfold uniqueViewNameFuel baseName
  simp only [hE, hc, Bool.true_and, decide_eq_true_eq, Bool.false_eq_true, if_false]

theorem uniqueViewNameFuel_of_absent (fuel : Nat) (names : List QString) (name : QString)
    (hne : name ≠ []) (hout : name ∉ names) :
    uniqueViewNameFuel (fuel + 1) names name = some name := by
  have hE : name.isEmpty = false := by
    cases name with
    | nil => exact absurd rfl hne
    | cons _ _ => rfl
  have hc : containsCurrentName names name = false := by
    rw [Bool.eq_false_iff]
    exact fun h => hout ((containsCurrentName_iff names name).1 h)
  unfold uniqueViewNameFuel
  simp only [hE, hc, Bool.false_and, Bool.false_eq_true, if_false]
  unfold uniqueLoop
  simp [hc]

/-- What `uniqueViewName` gives on any name: it returns; the empty name stays
empty; any other name becomes a non-empty name that the table does not have. -/
theorem uniqueViewName_fresh (names : List QString) (name : QString) :
    ∃ r, uniqueViewName names name = some r ∧
      (name = [] → r = []) ∧ (name ≠ [] → r ∉ names ∧ r ≠ []) := by
  unfold uniqueViewName
  by_cases hne : name = []
  · subst hne
    exact ⟨[], rfl, fun _ => rfl, fun h => absurd rfl h⟩
  · by_cases hin : name ∈ names
    · rw [uniqueViewNameFuel_of_present _ names name hne hin]
      obtain ⟨r, hr⟩ := uniqueLoop_isSome names (baseName name) (names.length + 1)
        (Nat.lt_succ_self _)
      refine ⟨r, hr, fun h => absurd h hne, fun _ => ?_⟩
      rcases uniqueLoop_some names _ _ _ _ r hr with ⟨hn, rfl⟩ | ⟨_, k, _, hk, hn, _⟩
      · exact ⟨hn, baseName_ne_nil name hne⟩
      · exact ⟨hn, hk ▸ candidate_ne_nil _ k⟩
    · rw [uniqueViewNameFuel_of_absent _ names name hne hin]
      exact ⟨name, rfl, fun h => absurd h hne, fun _ => ⟨hin, hne⟩⟩

/-- C1, amended. For a non-empty name `N` of the table, `uniqueViewName(N)`
returns (any fuel above the number of names is enough), and the name `r` it
returns is not `N` and not in the table. With `base` the name cut at the last
match of `" - [0-9]+"` when that match is not at position 0 (for a name
`b - digits` with `b` non-empty, `base` is `b`), `r` is `base` itself when the
table does not have `base`, and otherwise `base - k` for the smallest `k ≥ 2`
such that the table does not have `base - k`; this `k` is at most the number
of names of the table plus one, so the `int` counter of the loop does not
overflow on a table of fewer than `2^31 - 2` rows. -/
theorem uniqueViewName_of_present (names : List QString) (N : QString) (fuel : Nat)
    (hN : N ∈ names) (hne : N ≠ []) (hf : names.length < fuel) :
    ∃ r, uniqueViewNameFuel fuel names N = some r ∧ r ≠ N ∧ r ∉ names ∧
      ((baseName N ∉ names ∧ r = baseName N) ∨
        (baseName N ∈ names ∧ ∃ k, 2 ≤ k ∧ k ≤ names.length + 1 ∧
          r = baseName N ++ separator ++ number k ∧
          ∀ j, 2 ≤ j → j < k → baseName N ++ separator ++ number j ∈ names)) ∧
      (∀ b ds : QString, b ≠ [] → ds ≠ [] → (∀ c ∈ ds, c.isDigit = true) →
        N = b ++ separator ++ ds → baseName N = b) := by
  rw [uniqueViewNameFuel_of_present fuel names N hne hN]
  obtain ⟨r, hr⟩ := uniqueLoop_isSome names (baseName N) fuel hf
  have hsuf : ∀ b ds : QString, b ≠ [] → ds ≠ [] → (∀ c ∈ ds, c.isDigit = true) →
      N = b ++ separator ++ ds → baseName N = b := by
    intro b ds hb hds hd hEq
    rw [hEq]; exact baseName_suffix b ds hb hds hd
  have hrN : r ∉ names → r ≠ N := fun hn h => hn (h ▸ hN)
  rcases uniqueLoop_some names _ _ _ _ r hr with ⟨hn, hreq⟩ | ⟨hb, k, hk, hrk, hn, hall⟩
  · have hn2 : r ∉ names := hreq ▸ hn
    exact ⟨r, hr, hrN hn2, hn2, Or.inl ⟨hn, hreq⟩, hsuf⟩
  · exact ⟨r, hr, hrN hn, hn,
      Or.inr ⟨hb, k, hk, counter_le_length names _ k hk hb hall, hrk, hall⟩, hsuf⟩

/-- The amended C1 at the table `Dock`, `Dock - 2` and the name `Dock - 2`. -/
theorem uniqueViewName_of_present_witness :
    ∃ r, uniqueViewNameFuel 3 ["Dock".toList, "Dock - 2".toList] "Dock - 2".toList = some r ∧
      r ≠ "Dock - 2".toList ∧ r ∉ ["Dock".toList, "Dock - 2".toList] ∧
      ((baseName "Dock - 2".toList ∉ ["Dock".toList, "Dock - 2".toList] ∧
          r = baseName "Dock - 2".toList) ∨
        (baseName "Dock - 2".toList ∈ ["Dock".toList, "Dock - 2".toList] ∧
          ∃ k, 2 ≤ k ∧ k ≤ ["Dock".toList, "Dock - 2".toList].length + 1 ∧
            r = baseName "Dock - 2".toList ++ separator ++ number k ∧
            ∀ j, 2 ≤ j → j < k →
              baseName "Dock - 2".toList ++ separator ++ number j ∈
                ["Dock".toList, "Dock - 2".toList])) ∧
      (∀ b ds : QString, b ≠ [] → ds ≠ [] → (∀ c ∈ ds, c.isDigit = true) →
        "Dock - 2".toList = b ++ separator ++ ds → baseName "Dock - 2".toList = b) :=
  uniqueViewName_of_present ["Dock".toList, "Dock - 2".toList] "Dock - 2".toList 3
    (by decide) (by decide) (by decide)

/-- C1 as stated fails. In the table whose only name is `Dock - 2`,
`uniqueViewName("Dock - 2")` is `Dock`, which is not `Dock - k` for any `k`;
and in a table that has the empty name, `uniqueViewName("")` is the empty name
again, a name of the table. -/
theorem uniqueViewName_counterexample :
    (uniqueViewName ["Dock - 2".toList] "Dock - 2".toList = some "Dock".toList ∧
      ¬ ∃ k, "Dock".toList = "Dock".toList ++ separator ++ number k) ∧
    (uniqueViewName [[]] [] = some [] ∧ ([] : QString) ∈ [([] : QString)]) := by
  refine ⟨⟨by decide, ?_⟩, by decide, by decide⟩
  rintro ⟨k, hk⟩
  exact candidate_ne_namePart "Dock".toList k hk.symm

/-! ## Appending and pasting -/

theorem count_eq_countP_decide {α : Type} [DecidableEq α] (x : α) (l : List α) :
    List.count x l = List.countP (fun y => decide (y = x)) l := by
  unfold List.count
  congr 1

theorem countP_decide_eq_zero (x : QString) (l : List QString) (h : x ∉ l) :
    List.countP (fun y => decide (y = x)) l = 0 := by
  rw [List.countP_eq_zero]
  intro y hy hyx
  have : y = x := by simpa using hyx
  exact h (this ▸ hy)

theorem appendViewFromViewTemplate_spec (env : Env) (t : ViewsTable) (v : View) :
    ∃ r t1, appendViewFromViewTemplate env t v = some ({ v with name := r }, t1) ∧
      t1 = t ++ [{ v with name := r, id := env.tempId t { v with name := r } }] ∧
      (v.name = [] → r = []) ∧ (v.name ≠ [] → r ∉ currentNames t ∧ r ≠ []) := by
  obtain ⟨r, hr, h1, h2⟩ := uniqueViewName_fresh (currentNames t) v.name
  refine ⟨r, _, ?_, rfl, h1, h2⟩
  unfold appendViewFromViewTemplate
  rw [hr]
  rfl

theorem nodup_iff_filter_ne (a : QString) (l : List QString) :
    l.Nodup ↔ (l.filter (fun y => decide (y ≠ a))).Nodup ∧
      l.countP (fun y => decide (y = a)) ≤ 1 := by
  induction l with
  | nil => simp
  | cons x l ih =>
    rw [List.nodup_cons, ih, List.countP_cons]
    by_cases hx : x = a
    · subst hx
      have hf : List.filter (fun y => decide (y ≠ x)) (x :: l) =
          List.filter (fun y => decide (y ≠ x)) l := by
        rw [List.filter_cons]
        simp
      rw [hf, if_pos (by simp)]
      constructor
      · rintro ⟨hnot, hnd, _⟩
        exact ⟨hnd, by rw [countP_decide_eq_zero x l hnot]⟩
      · rintro ⟨hnd, hle⟩
        have h0 : List.countP (fun y => decide (y = x)) l = 0 := by omega
        refine ⟨?_, hnd, by omega⟩
        intro hmem
        rw [List.countP_eq_zero] at h0
        exact h0 x hmem (by simp)
    · have hf : List.filter (fun y => decide (y ≠ a)) (x :: l) =
          x :: List.filter (fun y => decide (y ≠ a)) l := by
        rw [List.filter_cons]
        simp [hx]
      rw [hf, if_neg (by simpa using hx), List.nodup_cons]
      constructor
      · rintro ⟨hnot, hnd, hle⟩
        exact ⟨⟨fun hmem => hnot (List.mem_filter.1 hmem).1, hnd⟩, by omega⟩
      · rintro ⟨⟨hnot, hnd⟩, hle⟩
        exact ⟨fun hmem => hnot (List.mem_filter.2 ⟨hmem, by simpa using hx⟩), hnd, by omega⟩

/-- The loop of paste returns; it appends one row per clipboard row, which is
the clipboard row but for its name and id; every non-empty name it gives
occurs once among the names of the table; it gives the empty name to the rows
of the clipboard that have it, and to no other. -/
theorem pasteLoop_spec (env : Env) (vs : List View) :
    ∀ t : ViewsTable, ∃ pasted : ViewsTable,
      pasteLoop env vs t = some (t ++ pasted) ∧ pasted.length = vs.length ∧
      (∀ x : QString, x ≠ [] → x ∈ currentNames pasted →
        (currentNames (t ++ pasted)).countP (fun y => decide (y = x)) = 1) ∧
      ((∀ v ∈ vs, v.name ≠ []) → ∀ p ∈ pasted, p.name ≠ []) ∧
      (∀ p ∈ pasted, ∃ v ∈ vs, p = { v with name := p.name, id := p.id }) ∧
      (currentNames pasted).countP (fun y => decide (y = [])) =
        (currentNames vs).countP (fun y => decide (y = [])) ∧
      (((currentNames t).filter (fun y => decide (y ≠ []))).Nodup →
        ((currentNames (t ++ pasted)).filter (fun y => decide (y ≠ []))).Nodup) := by
  induction vs with
  | nil =>
    intro t
    exact ⟨[], by simp [pasteLoop], rfl, by simp [currentNames], by simp, by simp, rfl,
      by simp⟩
  | cons v vs ih =>
    intro t
    obtain ⟨r, t1, happ, ht1, hr1, hr2⟩ := appendViewFromViewTemplate_spec env t v
    obtain ⟨pasted, hp, hlen, hcount, hne, hrows, hempty, hfilter⟩ := ih t1
    have hEq : t ++ { v with name := r, id := env.tempId t { v with name := r } } :: pasted
        = t1 ++ pasted := by rw [ht1]; simp
    refine ⟨{ v with name := r, id := env.tempId t { v with name := r } } :: pasted,
      ?_, ?_, ?_, ?_, ?_, ?_, ?_⟩
    · unfold pasteLoop
      rw [happ]
      simp only
      rw [hp, ht1]
      simp
    · simp [hlen]
    · intro x hx hmem
      rw [hEq]
      by_cases hxp : x ∈ currentNames pasted
      · exact hcount x hx hxp
      · have hxr : x = r := by
          simp only [currentNames, List.map_cons, List.mem_cons] at hmem
          rcases hmem with h | h
          · exact h
          · exact absurd h hxp
        subst hxr
        have hvne : v.name ≠ [] := fun h => hx (hr1 h)
        have hnt : x ∉ currentNames t := (hr2 hvne).1
        rw [ht1]
        have h1 := countP_decide_eq_zero x _ hnt
        have h2 := countP_decide_eq_zero x _ hxp
        simp only [currentNames] at h1 h2
        simp [currentNames, List.countP_append, List.countP_cons, h1, h2]
    · intro hall p hp2
      rcases List.mem_cons.1 hp2 with rfl | hp3
      · exact (hr2 (hall v (List.mem_cons_self _ _))).2
      · exact hne (fun w hw => hall w (List.mem_cons_of_mem _ hw)) p hp3
    · intro p hp2
      rcases List.mem_cons.1 hp2 with rfl | hp3
      · exact ⟨v, List.mem_cons_self _ _, rfl⟩
      · obtain ⟨w, hw, hpw⟩ := hrows p hp3
        exact ⟨w, List.mem_cons_of_mem _ hw, hpw⟩
    · simp only [currentNames, List.map_cons, List.countP_cons]
      simp only [currentNames] at hempty
      rw [hempty]
      by_cases hv : v.name = []
      · simp [hv, hr1 hv]
      · simp [hv, (hr2 hv).2]
    · intro hnd
      rw [hEq]
      apply hfilter
      rw [ht1]
      simp only [currentNames, List.map_append, List.map_cons, List.map_nil,
        List.filter_append]
      by_cases hr : r = []
      · simpa [hr, currentNames] using hnd
      · have hv : v.name ≠ [] := fun h => hr (hr1 h)
        have hnot : r ∉ currentNames t := (hr2 hv).1
        have hs : List.filter (fun y => decide (y ≠ [])) [r] = [r] := by
          simp [List.filter_cons, hr]
        rw [hs]
        refine List.Nodup.append hnd (List.nodup_singleton r) ?_
        intro x hx1 hx2
        rw [List.mem_singleton] at hx2
        subst hx2
        exact hnot (List.mem_filter.1 hx1).1

/-- C2, amended. When the names of the current table are pairwise distinct,
`pasteSelectedViews` returns on every clipboard contents, and afterwards: the
non-empty names of the current table are pairwise distinct; the rows with the
empty name are as many as the table had plus as many as the clipboard has; so
the names of all rows are pairwise distinct if and only if the table and the
clipboard together have at most one row with the empty name, as they do when
no clipboard row has the empty name. -/
theorem pasteSelectedViews_names_nodup (env : Env) (d : Views)
    (hnd : (currentNames d.current).Nodup) :
    ∃ d2, pasteSelectedViews env d = some d2 ∧
      ((currentNames d2.current).filter (fun y => decide (y ≠ []))).Nodup ∧
      (currentNames d2.current).countP (fun y => decide (y = [])) =
        (currentNames d.current).countP (fun y => decide (y = [])) +
          (currentNames d.clipboard).countP (fun y => decide (y = [])) ∧
      ((currentNames d2.current).Nodup ↔
        (currentNames d.current).countP (fun y => decide (y = [])) +
          (currentNames d.clipboard).countP (fun y => decide (y = [])) ≤ 1) ∧
      ((∀ v ∈ d.clipboard, v.name ≠ []) → (currentNames d2.current).Nodup) := by
  obtain ⟨pasted, hp, _, _, _, _, hempty, hfilter⟩ :=
    pasteLoop_spec env d.clipboard d.current
  have htab := (nodup_iff_filter_ne [] (currentNames d.current)).1 hnd
  have hf := hfilter htab.1
  have hc : (currentNames (d.current ++ pasted)).countP (fun y => decide (y = [])) =
      (currentNames d.current).countP (fun y => decide (y = [])) +
        (currentNames d.clipboard).countP (fun y => decide (y = [])) := by
    rw [← hempty]
    simp [currentNames, List.countP_append]
  have hiff : (currentNames (d.current ++ pasted)).Nodup ↔
      (currentNames d.current).countP (fun y => decide (y = [])) +
        (currentNames d.clipboard).countP (fun y => decide (y = [])) ≤ 1 := by
    rw [nodup_iff_filter_ne [] (currentNames (d.current ++ pasted)), hc]
    exact ⟨fun h => h.2, fun h => ⟨hf, h⟩⟩
  refine ⟨{ d with current := d.current ++ pasted }, ?_, hf, hc, hiff, ?_⟩
  · unfold pasteSelectedViews
    rw [hp]
  · intro hall
    apply hiff.2
    have h0 : (currentNames d.clipboard).countP (fun y => decide (y = [])) = 0 := by
      rw [List.countP_eq_zero]
      intro y hy
      simp only [currentNames, List.mem_map] at hy
      obtain ⟨v, hv, rfl⟩ := hy
      simpa using hall v hv
    rw [h0]
    exact htab.2

/-- The amended C2 at a table with the one name `Dock` and a clipboard of an
unnamed row and a row named `Dock`: the names afterwards are `Dock`, the empty
name and `Dock - 2`. -/
theorem pasteSelectedViews_names_nodup_witness :
    (currentNames dockAndUnnamedClipboard.current).Nodup ∧
    (∃ d2, pasteSelectedViews exampleEnv dockAndUnnamedClipboard = some d2 ∧
      currentNames d2.current = ["Dock".toList, [], "Dock - 2".toList]) ∧
    ∃ d2, pasteSelectedViews exampleEnv dockAndUnnamedClipboard = some d2 ∧
      ((currentNames d2.current).filter (fun y => decide (y ≠ []))).Nodup ∧
      (currentNames d2.current).countP (fun y => decide (y = [])) =
        (currentNames dockAndUnnamedClipboard.current).countP (fun y => decide (y = [])) +
          (currentNames dockAndUnnamedClipboard.clipboard).countP
            (fun y => decide (y = [])) ∧
      ((currentNames d2.current).Nodup ↔
        (currentNames dockAndUnnamedClipboard.current).countP (fun y => decide (y = [])) +
          (currentNames dockAndUnnamedClipboard.clipboard).countP
            (fun y => decide (y = [])) ≤ 1) ∧
      ((∀ v ∈ dockAndUnnamedClipboard.clipboard, v.name ≠ []) →
        (currentNames d2.current).Nodup) :=
  ⟨by decide, ⟨_, rfl, by decide⟩,
    pasteSelectedViews_names_nodup exampleEnv dockAndUnnamedClipboard (by decide)⟩

/-- C2 as stated fails. The current table has one row, with the empty name;
the clipboard has one row with the empty name; after `pasteSelectedViews` the
table has two rows with the empty name. -/
theorem pasteSelectedViews_counterexample :
    (currentNames [mkView "1" "" State.IsCreated]).Nodup ∧
    ∃ d2, pasteSelectedViews exampleEnv
        { original := [], current := [mkView "1" "" State.IsCreated], selection := [],
          clipboard := [mkView "1" "" State.OriginFromLayout] } = some d2 ∧
      currentNames d2.current = [[], []] ∧ ¬ (currentNames d2.current).Nodup :=
  ⟨by decide, _, rfl, by decide, by decide⟩

/-! ## Lemmas on the hashes of `save` -/

theorem QHash.insert_of_not_mem (h : QHash) (k : QString) (v : View)
    (hk : k ∉ h.map Prod.fst) : h.insert k v = h ++ [(k, v)] := by
  unfold QHash.insert
  have : h.any (fun e => e.1 == k) = false := by
    rw [Bool.eq_false_iff]
    intro hany
    rw [List.any_eq_true] at hany
    obtain ⟨e, he, hek⟩ := hany
    have hek2 : e.1 = k := by simpa using hek
    exact hk (List.mem_map.2 ⟨e, he, hek2⟩)
  rw [this]
  rfl

theorem insertAll_of_nodup (es : List (QString × View)) :
    ∀ h : QHash, ((h ++ es).map Prod.fst).Nodup → insertAll h es = h ++ es := by
  induction es with
  | nil => intro h _; simp [insertAll]
  | cons e es ih =>
    intro h hnd
    have hk : e.1 ∉ h.map Prod.fst := by
      intro hmem
      rw [List.map_append, List.nodup_append] at hnd
      exact hnd.2.2 hmem (by simp)
    have hstep : insertAll h (e :: es) = insertAll (h.insert e.1 e.2) es := rfl
    rw [hstep, QHash.insert_of_not_mem h e.1 e.2 hk, ih]
    · simp
    · simpa using hnd

theorem insertAll_append (h : QHash) (es fs : List (QString × View)) :
    insertAll h (es ++ fs) = insertAll (insertAll h es) fs := by
  simp [insertAll, List.foldl_append]

theorem QHash.value_of_mem (h : QHash) (k : QString) (v : View)
    (hnd : (h.map Prod.fst).Nodup) (hmem : (k, v) ∈ h) : h.value k = v := by
  induction h with
  | nil => simp at hmem
  | cons e h ih =>
    rw [List.map_cons, List.nodup_cons] at hnd
    unfold QHash.value
    rw [List.find?_cons]
    by_cases hek : e.1 = k
    · have : (e.1 == k) = true := by simpa using hek
      rw [this]
      rcases List.mem_cons.1 hmem with heq | hin
      · rw [← heq]; rfl
      · exfalso
        exact hnd.1 (List.mem_map.2 ⟨(k, v), hin, hek.symm⟩)
    · have : (e.1 == k) = false := by simpa using hek
      rw [this]
      rcases List.mem_cons.1 hmem with heq | hin
      · exact absurd (by rw [← heq]) hek
      · exact ih hnd.2 hin

/-! ## The loops of `save` -/

theorem setState_id (row : View) (st : State) (a b c : QString) :
    (row.setState st a b c).id = row.id := rfl

theorem foldl_saveNewView (env : SaveEnv) (rows : List View) :
    ∀ s : SaveState,
      (rows.foldl (saveNewView env) s).calls = s.calls ++ newViewCalls env s.calls rows ∧
      (rows.foldl (saveNewView env) s).newviewsresponses =
        insertAll s.newviewsresponses (responsePairs (newViewCalls env s.calls rows)) ∧
      (rows.foldl (saveNewView env) s).cuttedviews =
        insertAll s.cuttedviews (flaggedEntries rows) := by
  induction rows with
  | nil => intro s; simp [newViewCalls, responsePairs, flaggedEntries, insertAll]
  | cons row rows ih =>
    intro s
    rw [List.foldl_cons]
    obtain ⟨h1, h2, h3⟩ := ih (saveNewView env s row)
    rw [h1, h2, h3]
    by_cases hm : row.isMoveOrigin = true
    · simp [saveNewView, newViewCalls, instantiationArg, flaggedEntries, insertAll, hm]
    · by_cases ht : row.state = State.OriginFromViewTemplate
      · simp [saveNewView, newViewCalls, instantiationArg, flaggedEntries, insertAll,
          responsePairs, hm, ht]
      · by_cases hl : row.state = State.OriginFromLayout
        · simp [saveNewView, newViewCalls, instantiationArg, flaggedEntries, insertAll,
            responsePairs, hm, ht, hl, setState_id]
        · simp [saveNewView, newViewCalls, instantiationArg, flaggedEntries, insertAll,
            hm, ht, hl]

theorem foldl_saveAlteredView (rows : List View) :
    ∀ s : SaveState,
      (rows.foldl saveAlteredView s).calls =
        s.calls ++ (rows.filter (fun r =>
          decide (r.state = State.IsCreated) && !r.isMoveOrigin)).map Call.updateView ∧
      (rows.foldl saveAlteredView s).newviewsresponses = s.newviewsresponses ∧
      (rows.foldl saveAlteredView s).cuttedviews =
        insertAll s.cuttedviews (flaggedEntries rows) := by
  induction rows with
  | nil => intro s; simp [flaggedEntries, insertAll]
  | cons row rows ih =>
    intro s
    rw [List.foldl_cons]
    obtain ⟨h1, h2, h3⟩ := ih (saveAlteredView s row)
    rw [h1, h2, h3]
    by_cases hm : row.isMoveOrigin = true
    · simp [saveAlteredView, flaggedEntries, insertAll, hm]
    · by_cases hc : row.state = State.IsCreated
      · simp [saveAlteredView, flaggedEntries, insertAll, hm, hc]
      · simp [saveAlteredView, flaggedEntries, insertAll, hm, hc]

theorem foldl_saveRemovedView (rows : List View) :
    ∀ s : SaveState,
      (rows.foldl saveRemovedView s).calls = s.calls ++ rows.map Call.removeView ∧
      (rows.foldl saveRemovedView s).newviewsresponses = s.newviewsresponses ∧
      (rows.foldl saveRemovedView s).cuttedviews = s.cuttedviews := by
  induction rows with
  | nil => intro s; simp
  | cons row rows ih =>
    intro s
    rw [List.foldl_cons]
    obtain ⟨h1, h2, h3⟩ := ih (saveRemovedView s row)
    rw [h1, h2, h3]
    simp [saveRemovedView]

theorem foldl_saveCuttedView (keys : List QString) :
    ∀ s : SaveState,
      (keys.foldl saveCuttedView s).calls = s.calls ++ cutRemovals s.cuttedviews keys ∧
      (keys.foldl saveCuttedView s).newviewsresponses = s.newviewsresponses ∧
      (keys.foldl saveCuttedView s).cuttedviews = s.cuttedviews := by
  induction keys with
  | nil => intro s; simp [cutRemovals]
  | cons k keys ih =>
    intro s
    rw [List.foldl_cons]
    obtain ⟨h1, h2, h3⟩ := ih (saveCuttedView s k)
    rw [h1, h2, h3]
    by_cases hc : (s.cuttedviews.value k).state = State.IsCreated
    · simp [saveCuttedView, cutRemovals, hc]
    · simp [saveCuttedView, cutRemovals, hc]

theorem foldl_setOriginalView (keys : List QString) :
    ∀ s : SaveState,
      (keys.foldl (fun s vid => { s with
          calls := s.calls ++ [Call.setOriginalView vid (s.newviewsresponses.value vid)] })
        s).calls =
        s.calls ++ keys.map (fun k => Call.setOriginalView k (s.newviewsresponses.value k)) ∧
      (keys.foldl (fun s vid => { s with
          calls := s.calls ++ [Call.setOriginalView vid (s.newviewsresponses.value vid)] })
        s).newviewsresponses = s.newviewsresponses ∧
      (keys.foldl (fun s vid => { s with
          calls := s.calls ++ [Call.setOriginalView vid (s.newviewsresponses.value vid)] })
        s).cuttedviews = s.cuttedviews := by
  induction keys with
  | nil => intro s; simp
  | cons k keys ih =>
    intro s
    rw [List.foldl_cons]
    obtain ⟨h1, h2, h3⟩ := ih _
    rw [h1, h2, h3]
    simp

theorem foldl_modelRemoveView (keys : List QString) :
    ∀ s : SaveState,
      (keys.foldl (fun s vid => { s with calls := s.calls ++ [Call.modelRemoveView vid] })
        s).calls = s.calls ++ keys.map Call.modelRemoveView ∧
      (keys.foldl (fun s vid => { s with calls := s.calls ++ [Call.modelRemoveView vid] })
        s).newviewsresponses = s.newviewsresponses ∧
      (keys.foldl (fun s vid => { s with calls := s.calls ++ [Call.modelRemoveView vid] })
        s).cuttedviews = s.cuttedviews := by
  induction keys with
  | nil => intro s; simp
  | cons k keys ih =>
    intro s
    rw [List.foldl_cons]
    obtain ⟨h1, h2, h3⟩ := ih _
    rw [h1, h2, h3]
    simp

/-- The calls of `save`, loop by loop, and its two hashes. -/
theorem save_eq (env : SaveEnv) (original current : ViewsTable) :
    (save env original current).calls =
      newViewCalls env [] (newViews original current) ++
      ((alteredViews original current).filter (fun r =>
        decide (r.state = State.IsCreated) && !r.isMoveOrigin)).map Call.updateView ++
      (subtracted original current).map Call.removeView ++
      cutRemovals (savedCuttedViews original current)
        ((savedCuttedViews original current).keys env.keysOrder) ++
      syncCalls original current ++
      ((savedResponses env original current).keys env.keysOrder).map
        (fun k => Call.setOriginalView k ((savedResponses env original current).value k)) ++
      ((savedCuttedViews original current).keys env.keysOrder).map Call.modelRemoveView ∧
    (save env original current).newviewsresponses = savedResponses env original current ∧
    (save env original current).cuttedviews = savedCuttedViews original current := by
  unfold save syncCalls savedResponses savedCuttedViews
  simp only [insertAll_append]
  by_cases hc : 0 < (subtracted original current).length ∨ 0 < (newViews original current).length
  · simp only [hc, if_true]
    simp [foldl_modelRemoveView, foldl_setOriginalView, foldl_saveCuttedView,
      foldl_saveRemovedView, foldl_saveAlteredView, foldl_saveNewView]
  · simp only [hc, if_false]
    simp [foldl_modelRemoveView, foldl_setOriginalView, foldl_saveCuttedView,
      foldl_saveRemovedView, foldl_saveAlteredView, foldl_saveNewView]

/-! ## The calls of `save` by kind -/

theorem instantiationArg_some (row a : View) (h : instantiationArg row = some a) :
    a.id = row.id ∧ row.isMoveOrigin = false ∧ a.isMoveOrigin = false := by
  unfold instantiationArg at h
  by_cases hm : row.isMoveOrigin = true
  · simp [hm] at h
  · have hm2 : row.isMoveOrigin = false := by simpa using hm
    by_cases ht : row.state = State.OriginFromViewTemplate
    · simp [hm2, ht] at h
      subst h
      exact ⟨rfl, hm2, hm2⟩
    · by_cases hl : row.state = State.OriginFromLayout
      · simp [hm2, hl] at h
        subst h
        exact ⟨rfl, hm2, hm2⟩
      · simp [hm2, ht, hl] at h

theorem newViewCalls_isNewView (env : SaveEnv) (rows : List View) :
    ∀ (log : List Call) (c : Call), c ∈ newViewCalls env log rows →
      ∃ a r, c = Call.newView a r := by
  induction rows with
  | nil => intro log c h; simp [newViewCalls] at h
  | cons row rows ih =>
    intro log c h
    unfold newViewCalls at h
    cases ha : instantiationArg row with
    | none => rw [ha] at h; exact ih log c h
    | some a =>
      rw [ha] at h
      rcases List.mem_cons.1 h with rfl | h2
      · exact ⟨_, _, rfl⟩
      · exact ih _ c h2

theorem newViewArgs_newViewCalls (env : SaveEnv) (rows : List View) :
    ∀ log : List Call,
      newViewArgs (newViewCalls env log rows) = rows.filterMap instantiationArg := by
  induction rows with
  | nil => intro log; rfl
  | cons row rows ih =>
    intro log
    unfold newViewCalls
    cases ha : instantiationArg row with
    | none => simp [List.filterMap_cons, ha, ih]
    | some a =>
      simp only [List.filterMap_cons, ha]
      unfold newViewArgs
      simp only [List.filterMap_cons]
      exact congrArg _ (ih _)

theorem responsePairs_keys (calls : List Call) :
    (responsePairs calls).map Prod.fst = (newViewArgs calls).map View.id := by
  induction calls with
  | nil => rfl
  | cons c calls ih =>
    cases c <;> simp_all [responsePairs, newViewArgs, List.filterMap_cons]

theorem mem_responsePairs (calls : List Call) (a r : View)
    (h : Call.newView a r ∈ calls) : (a.id, r) ∈ responsePairs calls := by
  unfold responsePairs
  rw [List.mem_filterMap]
  exact ⟨Call.newView a r, h, rfl⟩

theorem newViewArgs_append (xs ys : List Call) :
    newViewArgs (xs ++ ys) = newViewArgs xs ++ newViewArgs ys := by
  simp [newViewArgs, List.filterMap_append]

theorem removeViewArgs_append (xs ys : List Call) :
    removeViewArgs (xs ++ ys) = removeViewArgs xs ++ removeViewArgs ys := by
  simp [removeViewArgs, List.filterMap_append]

theorem updateViewArgs_append (xs ys : List Call) :
    updateViewArgs (xs ++ ys) = updateViewArgs xs ++ updateViewArgs ys := by
  simp [updateViewArgs, List.filterMap_append]

theorem filterMap_eq_nil_of_forall {α β : Type} (f : α → Option β) (l : List α)
    (h : ∀ x ∈ l, f x = none) : l.filterMap f = [] := by
  induction l with
  | nil => rfl
  | cons x l ih =>
    rw [List.filterMap_cons, h x (List.mem_cons_self _ _)]
    exact ih (fun y hy => h y (List.mem_cons_of_mem _ hy))

theorem filterMap_const_none {α β : Type} (l : List α) :
    l.filterMap (fun _ => (none : Option β)) = [] :=
  filterMap_eq_nil_of_forall _ l (fun _ _ => rfl)

theorem syncCalls_args (original current : ViewsTable) :
    newViewArgs (syncCalls original current) = [] ∧
    removeViewArgs (syncCalls original current) = [] ∧
    updateViewArgs (syncCalls original current) = [] := by
  unfold syncCalls
  split <;> exact ⟨rfl, rfl, rfl⟩

theorem cutRemovals_args (cv : QHash) (keys : List QString) :
    newViewArgs (cutRemovals cv keys) = [] ∧ updateViewArgs (cutRemovals cv keys) = [] := by
  constructor
  · apply filterMap_eq_nil_of_forall
    intro c hc
    simp only [cutRemovals, List.mem_filterMap] at hc
    obtain ⟨k, _, hk⟩ := hc
    split at hk
    · cases hk; rfl
    · cases hk
  · apply filterMap_eq_nil_of_forall
    intro c hc
    simp only [cutRemovals, List.mem_filterMap] at hc
    obtain ⟨k, _, hk⟩ := hc
    split at hk
    · cases hk; rfl
    · cases hk

/-- The views that `save` hands to `newView`, in call order. -/
theorem save_newViewArgs (env : SaveEnv) (original current : ViewsTable) :
    newViewArgs (save env original current).calls =
      (newViews original current).filterMap instantiationArg := by
  rw [(save_eq env original current).1]
  simp only [newViewArgs_append, newViewArgs_newViewCalls, (syncCalls_args _ _).1,
    (cutRemovals_args _ _).1]
  simp [newViewArgs, List.filterMap_map, Function.comp_def]

/-- The views that `save` hands to `central->updateView`, in call order. -/
theorem save_updateViewArgs (env : SaveEnv) (original current : ViewsTable) :
    updateViewArgs (save env original current).calls =
      (alteredViews original current).filter (fun r =>
        decide (r.state = State.IsCreated) && !r.isMoveOrigin) := by
  rw [(save_eq env original current).1]
  have h1 : updateViewArgs (newViewCalls env [] (newViews original current)) = [] := by
    apply filterMap_eq_nil_of_forall
    intro c hc
    obtain ⟨a, r, rfl⟩ := newViewCalls_isNewView env _ _ c hc
    rfl
  simp only [updateViewArgs_append, h1, (syncCalls_args _ _).2.2, (cutRemovals_args _ _).2]
  simp [updateViewArgs, List.filterMap_map, Function.comp_def]

/-- The views that `save` hands to `central->removeView`, in call order. -/
theorem save_removeViewArgs (env : SaveEnv) (original current : ViewsTable) :
    removeViewArgs (save env original current).calls =
      subtracted original current ++
        removeViewArgs (cutRemovals (savedCuttedViews original current)
          ((savedCuttedViews original current).keys env.keysOrder)) := by
  rw [(save_eq env original current).1]
  have h1 : removeViewArgs (newViewCalls env [] (newViews original current)) = [] := by
    apply filterMap_eq_nil_of_forall
    intro c hc
    obtain ⟨a, r, rfl⟩ := newViewCalls_isNewView env _ _ c hc
    rfl
  simp only [removeViewArgs_append, h1, (syncCalls_args _ _).2.1]
  simp [removeViewArgs, List.filterMap_map, Function.comp_def, filterMap_const_none]

/-- C3, amended. `save` calls `syncActiveLayoutsToOriginalFiles` if and only
if the table of removed rows (original minus current) or the table of new rows
is not empty; so it does whenever `newView` is called. -/
theorem save_sync_iff (env : SaveEnv) (original current : ViewsTable) :
    (Call.syncActiveLayoutsToOriginalFiles ∈ (save env original current).calls ↔
      (subtracted original current ≠ [] ∨ newViews original current ≠ [])) ∧
    (newViewArgs (save env original current).calls ≠ [] →
      Call.syncActiveLayoutsToOriginalFiles ∈ (save env original current).calls) := by
  have hiff : Call.syncActiveLayoutsToOriginalFiles ∈ (save env original current).calls ↔
      (subtracted original current ≠ [] ∨ newViews original current ≠ []) := by
    rw [(save_eq env original current).1]
    have h1 : Call.syncActiveLayoutsToOriginalFiles ∉
        newViewCalls env [] (newViews original current) := by
      intro hc
      obtain ⟨a, r, h⟩ := newViewCalls_isNewView env _ _ _ hc
      cases h
    have h2 : ∀ cv keys, Call.syncActiveLayoutsToOriginalFiles ∉ cutRemovals cv keys := by
      intro cv keys hc
      simp only [cutRemovals, List.mem_filterMap] at hc
      obtain ⟨k, _, hk⟩ := hc
      split at hk <;> cases hk
    have h3 : Call.syncActiveLayoutsToOriginalFiles ∈ syncCalls original current ↔
        (subtracted original current ≠ [] ∨ newViews original current ≠ []) := by
      unfold syncCalls
      simp only [List.length_pos]
      split
      · rename_i h; simp [h]
      · rename_i h; simp only [List.not_mem_nil, false_iff]; exact h
    simp only [List.mem_append, h1, h2, h3, List.mem_map]
    simp
  refine ⟨hiff, fun hne => hiff.2 (Or.inr ?_)⟩
  intro hnil
  rw [save_newViewArgs, hnil] at hne
  exact hne rfl

/-- The amended C3 at an original table of three created views and a current
table that drops two of them and adds a row from a view template. -/
theorem save_sync_iff_witness :
    newViewArgs (save exampleSaveEnv threeOriginalTwoCurrent.original
      threeOriginalTwoCurrent.current).calls ≠ [] ∧
    ((Call.syncActiveLayoutsToOriginalFiles ∈ (save exampleSaveEnv
        threeOriginalTwoCurrent.original threeOriginalTwoCurrent.current).calls ↔
      (subtracted threeOriginalTwoCurrent.original threeOriginalTwoCurrent.current ≠ [] ∨
        newViews threeOriginalTwoCurrent.original threeOriginalTwoCurrent.current ≠ [])) ∧
    (newViewArgs (save exampleSaveEnv threeOriginalTwoCurrent.original
        threeOriginalTwoCurrent.current).calls ≠ [] →
      Call.syncActiveLayoutsToOriginalFiles ∈ (save exampleSaveEnv
        threeOriginalTwoCurrent.original threeOriginalTwoCurrent.current).calls)) :=
  ⟨by decide, save_sync_iff exampleSaveEnv threeOriginalTwoCurrent.original
    threeOriginalTwoCurrent.current⟩

/-- C3 as stated fails, both ways. When the only edit is a cut of a created
view, `save` calls `removeView` on it and does not call
`syncActiveLayoutsToOriginalFiles`; when the only new row is flagged
`isMoveOrigin` and comes from a layout, `save` calls
`syncActiveLayoutsToOriginalFiles` and neither `newView` nor `removeView`. -/
theorem save_sync_counterexample :
    (removeViewArgs (save exampleSaveEnv [mkView "1" "Dock" State.IsCreated]
        [{ mkView "1" "Dock" State.IsCreated with isMoveOrigin := true }]).calls =
        [{ mkView "1" "Dock" State.IsCreated with isMoveOrigin := true }] ∧
      Call.syncActiveLayoutsToOriginalFiles ∉
        (save exampleSaveEnv [mkView "1" "Dock" State.IsCreated]
          [{ mkView "1" "Dock" State.IsCreated with isMoveOrigin := true }]).calls) ∧
    (Call.syncActiveLayoutsToOriginalFiles ∈
        (save exampleSaveEnv []
          [{ mkView "t1" "Dock" State.OriginFromLayout with isMoveOrigin := true }]).calls ∧
      newViewArgs (save exampleSaveEnv []
          [{ mkView "t1" "Dock" State.OriginFromLayout with isMoveOrigin := true }]).calls = [] ∧
      removeViewArgs (save exampleSaveEnv []
          [{ mkView "t1" "Dock" State.OriginFromLayout with isMoveOrigin := true }]).calls = []) := by
  refine ⟨⟨by decide, by decide⟩, by decide, by decide, by decide⟩

/-! ## `save` on a table with distinct ids -/

theorem nodup_ids_filter (t : ViewsTable) (p : View → Bool)
    (hnd : (t.map View.id).Nodup) : ((t.filter p).map View.id).Nodup :=
  List.Nodup.sublist ((List.filter_sublist t).map View.id) hnd

theorem instantiationArg_ids_sublist (l : List View) :
    List.Sublist ((l.filterMap instantiationArg).map View.id) (l.map View.id) := by
  induction l with
  | nil => exact List.Sublist.slnil
  | cons x l ih =>
    rw [List.filterMap_cons]
    cases ha : instantiationArg x with
    | none => exact List.Sublist.cons _ ih
    | some a =>
      simp only [List.map_cons]
      rw [(instantiationArg_some x a ha).1]
      exact List.Sublist.cons₂ _ ih

theorem savedResponses_eq (env : SaveEnv) (original current : ViewsTable)
    (hnd : (current.map View.id).Nodup) :
    savedResponses env original current =
      responsePairs (newViewCalls env [] (newViews original current)) ∧
    ((savedResponses env original current).map Prod.fst).Nodup := by
  have hk : ((responsePairs (newViewCalls env [] (newViews original current))).map
      Prod.fst).Nodup := by
    rw [responsePairs_keys, newViewArgs_newViewCalls]
    exact List.Nodup.sublist (instantiationArg_ids_sublist _)
      (nodup_ids_filter current _ hnd)
  have h : savedResponses env original current =
      responsePairs (newViewCalls env [] (newViews original current)) := by
    unfold savedResponses
    rw [insertAll_of_nodup _ [] (by simpa using hk)]
    simp
  exact ⟨h, h ▸ hk⟩

theorem filter_id_eq_nil (l : List View) (k : QString) (h : ∀ y ∈ l, y.id ≠ k) :
    (l.filterMap instantiationArg).filter (fun a => decide (a.id = k)) = [] := by
  rw [List.filter_eq_nil_iff]
  intro a ha
  rw [List.mem_filterMap] at ha
  obtain ⟨y, hy, hya⟩ := ha
  have := (instantiationArg_some y a hya).1
  simpa [this] using h y hy

/-- Among the views handed to `newView` for rows with distinct ids, the only
one with the id of a row `r` is the one made for `r`. -/
theorem filter_id_instantiationArg (l : List View) (hnd : (l.map View.id).Nodup)
    (r : View) (hr : r ∈ l) :
    (l.filterMap instantiationArg).filter (fun a => decide (a.id = r.id)) =
      (instantiationArg r).toList := by
  induction l with
  | nil => simp at hr
  | cons x l ih =>
    rw [List.map_cons, List.nodup_cons] at hnd
    rcases List.mem_cons.1 hr with rfl | hin
    · have hrest := filter_id_eq_nil l r.id (fun y hy hEq =>
        hnd.1 (List.mem_map.2 ⟨y, hy, hEq⟩))
      rw [List.filterMap_cons]
      cases ha : instantiationArg r with
      | none => simpa using hrest
      | some a =>
        simp only [List.filter_cons, (instantiationArg_some r a ha).1, decide_True, if_true,
          Option.toList]
        rw [hrest]
    · have hne : x.id ≠ r.id := fun hEq =>
        hnd.1 (List.mem_map.2 ⟨r, hin, hEq.symm⟩)
      rw [List.filterMap_cons]
      cases ha : instantiationArg x with
      | none => exact ih hnd.2 hin
      | some a =>
        have : decide (a.id = r.id) = false := by
          simpa [(instantiationArg_some x a ha).1] using hne
        simp only [List.filter_cons, this]
        exact ih hnd.2 hin

/-- C4. In `save`, on a current table with distinct ids: for a new row `r`,
the views handed to `newView` under the id of `r` are none when `r` is flagged
`isMoveOrigin`; exactly `r` when `r` is not flagged and its state is
`OriginFromViewTemplate`; exactly `r` re-tagged `OriginFromViewTemplate` with
its `originFile` and empty origin layout and origin view when `r` is not
flagged and its state is `OriginFromLayout`; none in any other state. Every
`newView` call is made for a new row, its answer is in `newviewsresponses`
under the id of that row, and `setOriginalView` is called with that id and
that answer. -/
theorem save_newViews (env : SaveEnv) (original current : ViewsTable)
    (hnd : (current.map View.id).Nodup) :
    (∀ r ∈ newViews original current,
      (r.isMoveOrigin = true →
        (newViewArgs (save env original current).calls).filter
          (fun a => decide (a.id = r.id)) = []) ∧
      (r.isMoveOrigin = false → r.state = State.OriginFromViewTemplate →
        (newViewArgs (save env original current).calls).filter
          (fun a => decide (a.id = r.id)) = [r]) ∧
      (r.isMoveOrigin = false → r.state = State.OriginFromLayout →
        (newViewArgs (save env original current).calls).filter
          (fun a => decide (a.id = r.id)) =
          [{ r with state := State.OriginFromViewTemplate, originFile := r.originFile,
                    originLayout := [], originView := [] }]) ∧
      (r.isMoveOrigin = false → r.state ≠ State.OriginFromViewTemplate →
        r.state ≠ State.OriginFromLayout →
        (newViewArgs (save env original current).calls).filter
          (fun a => decide (a.id = r.id)) = [])) ∧
    (∀ a response, Call.newView a response ∈ (save env original current).calls →
      (∃ r ∈ newViews original current, instantiationArg r = some a ∧ a.id = r.id) ∧
      (a.id, response) ∈ (save env original current).newviewsresponses ∧
      (save env original current).newviewsresponses.value a.id = response ∧
      Call.setOriginalView a.id response ∈ (save env original current).calls) := by
  have hnv : ((newViews original current).map View.id).Nodup :=
    nodup_ids_filter current (fun r => !containsId original r.id) hnd
  constructor
  · intro r hr
    rw [save_newViewArgs, filter_id_instantiationArg _ hnv r hr]
    refine ⟨?_, ?_, ?_, ?_⟩
    · intro hm; simp [instantiationArg, hm]
    · intro hm ht; simp [instantiationArg, hm, ht]
    · intro hm hl; simp [instantiationArg, hm, hl, View.setState]
    · intro hm ht hl; simp [instantiationArg, hm, ht, hl]
  · intro a response hcall
    obtain ⟨hcalls, hresp, _⟩ := save_eq env original current
    obtain ⟨hsr, hsnd⟩ := savedResponses_eq env original current hnd
    have hin1 : Call.newView a response ∈ newViewCalls env [] (newViews original current) := by
      rw [hcalls] at hcall
      simp only [List.mem_append, List.mem_map] at hcall
      rcases hcall with ((((((h | ⟨_, _, h⟩) | ⟨_, _, h⟩) | h) | h) | ⟨_, _, h⟩) | ⟨_, _, h⟩)
      · exact h
      · cases h
      · cases h
      · simp only [cutRemovals, List.mem_filterMap] at h
        obtain ⟨k, _, hk⟩ := h
        split at hk <;> cases hk
      · unfold syncCalls at h
        split at h
        · simp at h
        · simp at h
      · cases h
      · cases h
    have harg : a ∈ (newViews original current).filterMap instantiationArg := by
      rw [← newViewArgs_newViewCalls env _ []]
      unfold newViewArgs
      rw [List.mem_filterMap]
      exact ⟨_, hin1, rfl⟩
    rw [List.mem_filterMap] at harg
    obtain ⟨r, hr, hra⟩ := harg
    have hpair : (a.id, response) ∈ savedResponses env original current := by
      rw [hsr]; exact mem_responsePairs _ a response hin1
    have hval := QHash.value_of_mem _ a.id response hsnd hpair
    refine ⟨⟨r, hr, hra, (instantiationArg_some r a hra).1⟩, hresp ▸ hpair, ?_, ?_⟩
    · rw [hresp]; exact hval
    · rw [hcalls]
      have hkey : a.id ∈ (savedResponses env original current).keys env.keysOrder := by
        unfold QHash.keys
        rw [(env.keysOrder.perm _).mem_iff]
        exact List.mem_map.2 ⟨(a.id, response), hpair, rfl⟩
      simp only [List.mem_append, List.mem_map]
      left; right
      exact ⟨a.id, hkey, by rw [hval]⟩

/-- C4 at an original table with one created view and a current table that
adds a new row from a view template and a new row from a layout. -/
theorem save_newViews_witness :
    (∀ r ∈ newViews [mkView "1" "Dock" State.IsCreated]
        [mkView "1" "Dock" State.IsCreated, mkView "t1" "A" State.OriginFromViewTemplate,
          mkView "t2" "B" State.OriginFromLayout],
      (r.isMoveOrigin = true →
        (newViewArgs (save exampleSaveEnv [mkView "1" "Dock" State.IsCreated]
          [mkView "1" "Dock" State.IsCreated, mkView "t1" "A" State.OriginFromViewTemplate,
            mkView "t2" "B" State.OriginFromLayout]).calls).filter
          (fun a => decide (a.id = r.id)) = []) ∧
      (r.isMoveOrigin = false → r.state = State.OriginFromViewTemplate →
        (newViewArgs (save exampleSaveEnv [mkView "1" "Dock" State.IsCreated]
          [mkView "1" "Dock" State.IsCreated, mkView "t1" "A" State.OriginFromViewTemplate,
            mkView "t2" "B" State.OriginFromLayout]).calls).filter
          (fun a => decide (a.id = r.id)) = [r]) ∧
      (r.isMoveOrigin = false → r.state = State.OriginFromLayout →
        (newViewArgs (save exampleSaveEnv [mkView "1" "Dock" State.IsCreated]
          [mkView "1" "Dock" State.IsCreated, mkView "t1" "A" State.OriginFromViewTemplate,
            mkView "t2" "B" State.OriginFromLayout]).calls).filter
          (fun a => decide (a.id = r.id)) =
          [{ r with state := State.OriginFromViewTemplate, originFile := r.originFile,
                    originLayout := [], originView := [] }]) ∧
      (r.isMoveOrigin = false → r.state ≠ State.OriginFromViewTemplate →
        r.state ≠ State.OriginFromLayout →
        (newViewArgs (save exampleSaveEnv [mkView "1" "Dock" State.IsCreated]
          [mkView "1" "Dock" State.IsCreated, mkView "t1" "A" State.OriginFromViewTemplate,
            mkView "t2" "B" State.OriginFromLayout]).calls).filter
          (fun a => decide (a.id = r.id)) = [])) ∧
    (∀ a response, Call.newView a response ∈
        (save exampleSaveEnv [mkView "1" "Dock" State.IsCreated]
          [mkView "1" "Dock" State.IsCreated, mkView "t1" "A" State.OriginFromViewTemplate,
            mkView "t2" "B" State.OriginFromLayout]).calls →
      (∃ r ∈ newViews [mkView "1" "Dock" State.IsCreated]
          [mkView "1" "Dock" State.IsCreated, mkView "t1" "A" State.OriginFromViewTemplate,
            mkView "t2" "B" State.OriginFromLayout],
        instantiationArg r = some a ∧ a.id = r.id) ∧
      (a.id, response) ∈ (save exampleSaveEnv [mkView "1" "Dock" State.IsCreated]
          [mkView "1" "Dock" State.IsCreated, mkView "t1" "A" State.OriginFromViewTemplate,
            mkView "t2" "B" State.OriginFromLayout]).newviewsresponses ∧
      (save exampleSaveEnv [mkView "1" "Dock" State.IsCreated]
          [mkView "1" "Dock" State.IsCreated, mkView "t1" "A" State.OriginFromViewTemplate,
            mkView "t2" "B" State.OriginFromLayout]).newviewsresponses.value a.id = response ∧
      Call.setOriginalView a.id response ∈
        (save exampleSaveEnv [mkView "1" "Dock" State.IsCreated]
          [mkView "1" "Dock" State.IsCreated, mkView "t1" "A" State.OriginFromViewTemplate,
            mkView "t2" "B" State.OriginFromLayout]).calls) :=
  save_newViews exampleSaveEnv [mkView "1" "Dock" State.IsCreated]
    [mkView "1" "Dock" State.IsCreated, mkView "t1" "A" State.OriginFromViewTemplate,
      mkView "t2" "B" State.OriginFromLayout] (by decide)

theorem containsId_iff (t : ViewsTable) (k : QString) :
    containsId t k = true ↔ k ∈ t.map View.id := by
  unfold containsId
  rw [List.any_eq_true, List.mem_map]
  constructor
  · rintro ⟨r, hr, h⟩; exact ⟨r, hr, by simpa using h⟩
  · rintro ⟨r, hr, h⟩; exact ⟨r, hr, by simpa using h⟩

theorem flaggedEntries_keys (rows : List View) :
    (flaggedEntries rows).map Prod.fst = (rows.filter (fun r => r.isMoveOrigin)).map View.id := by
  simp [flaggedEntries, List.map_map, Function.comp_def]

theorem mem_flaggedEntries (rows : List View) (e : QString × View) :
    e ∈ flaggedEntries rows ↔ e.2 ∈ rows ∧ e.2.isMoveOrigin = true ∧ e.1 = e.2.id := by
  unfold flaggedEntries
  rw [List.mem_map]
  constructor
  · rintro ⟨r, hr, rfl⟩
    rw [List.mem_filter] at hr
    exact ⟨hr.1, hr.2, rfl⟩
  · rintro ⟨h1, h2, h3⟩
    refine ⟨e.2, List.mem_filter.2 ⟨h1, h2⟩, ?_⟩
    rw [← h3]

theorem savedCuttedViews_eq (original current : ViewsTable)
    (hnd : (current.map View.id).Nodup) :
    savedCuttedViews original current =
      flaggedEntries (newViews original current) ++
        flaggedEntries (alteredViews original current) ∧
    ((savedCuttedViews original current).map Prod.fst).Nodup := by
  have hk : ((flaggedEntries (newViews original current) ++
      flaggedEntries (alteredViews original current)).map Prod.fst).Nodup := by
    rw [List.map_append, flaggedEntries_keys, flaggedEntries_keys]
    refine List.Nodup.append ?_ ?_ ?_
    · exact nodup_ids_filter _ _ (nodup_ids_filter current _ hnd)
    · exact nodup_ids_filter _ _ (nodup_ids_filter current _ hnd)
    · intro k h1 h2
      rw [List.mem_map] at h1 h2
      obtain ⟨r1, hr1, rfl⟩ := h1
      obtain ⟨r2, hr2, hEq⟩ := h2
      have h1 := (List.mem_filter.1 (List.mem_filter.1 hr1).1).2
      have h2 := (List.mem_filter.1 (List.mem_filter.1 hr2).1).2
      rw [hEq] at h2
      simp only [Bool.and_eq_true] at h2
      rw [h2.1] at h1
      simp at h1
  have h : savedCuttedViews original current =
      flaggedEntries (newViews original current) ++
        flaggedEntries (alteredViews original current) := by
    unfold savedCuttedViews
    rw [insertAll_of_nodup _ [] (by simpa using hk)]
    simp
  exact ⟨h, h ▸ hk⟩

/-- C5. In `save`, on a current table with distinct ids: `removeView` of the
persisted-layout handle is called on a view if and only if the view is a row of
the removed table (original minus current), or a new or altered row flagged
`isMoveOrigin` whose state is `IsCreated`; `updateView` is called on a view if
and only if the view is an altered row whose state is `IsCreated` and that is
not flagged `isMoveOrigin`. -/
theorem save_removeView_updateView (env : SaveEnv) (original current : ViewsTable)
    (hnd : (current.map View.id).Nodup) :
    (∀ v, Call.removeView v ∈ (save env original current).calls ↔
      (v ∈ subtracted original current ∨
        ((v ∈ newViews original current ∨ v ∈ alteredViews original current) ∧
          v.isMoveOrigin = true ∧ v.state = State.IsCreated))) ∧
    (∀ v, Call.updateView v ∈ (save env original current).calls ↔
      (v ∈ alteredViews original current ∧ v.state = State.IsCreated ∧
        v.isMoveOrigin = false)) := by
  have hrem : ∀ v, Call.removeView v ∈ (save env original current).calls ↔
      v ∈ removeViewArgs (save env original current).calls := by
    intro v
    unfold removeViewArgs
    rw [List.mem_filterMap]
    constructor
    · intro h; exact ⟨_, h, rfl⟩
    · rintro ⟨c, hc, hcv⟩
      cases c <;> simp at hcv
      subst hcv; exact hc
  have hupd : ∀ v, Call.updateView v ∈ (save env original current).calls ↔
      v ∈ updateViewArgs (save env original current).calls := by
    intro v
    unfold updateViewArgs
    rw [List.mem_filterMap]
    constructor
    · intro h; exact ⟨_, h, rfl⟩
    · rintro ⟨c, hc, hcv⟩
      cases c <;> simp at hcv
      subst hcv; exact hc
  obtain ⟨hcv, hcvnd⟩ := savedCuttedViews_eq original current hnd
  constructor
  · intro v
    rw [hrem, save_removeViewArgs, List.mem_append]
    have hcut : v ∈ removeViewArgs (cutRemovals (savedCuttedViews original current)
          ((savedCuttedViews original current).keys env.keysOrder)) ↔
        ((v ∈ newViews original current ∨ v ∈ alteredViews original current) ∧
          v.isMoveOrigin = true ∧ v.state = State.IsCreated) := by
      have hmemcv : ∀ e : QString × View, e ∈ savedCuttedViews original current ↔
          ((e.2 ∈ newViews original current ∨ e.2 ∈ alteredViews original current) ∧
            e.2.isMoveOrigin = true ∧ e.1 = e.2.id) := by
        intro e
        rw [hcv, List.mem_append, mem_flaggedEntries, mem_flaggedEntries]
        tauto
      unfold removeViewArgs cutRemovals
      simp only [List.mem_filterMap]
      constructor
      · rintro ⟨c, ⟨k, hk, hkc⟩, hcv2⟩
        unfold QHash.keys at hk
        rw [(env.keysOrder.perm _).mem_iff, List.mem_map] at hk
        obtain ⟨e, he, rfl⟩ := hk
        have hval := QHash.value_of_mem _ e.1 e.2 hcvnd he
        rw [hval] at hkc
        by_cases hst : e.2.state = State.IsCreated
        · rw [if_pos hst] at hkc
          cases hkc
          simp only [Option.some.injEq] at hcv2
          subst hcv2
          obtain ⟨h1, h2, _⟩ := (hmemcv e).1 he
          exact ⟨h1, h2, hst⟩
        · rw [if_neg hst] at hkc
          cases hkc
      · rintro ⟨hin, hflag, hst⟩
        have he : (v.id, v) ∈ savedCuttedViews original current :=
          (hmemcv (v.id, v)).2 ⟨hin, hflag, rfl⟩
        have hval := QHash.value_of_mem _ v.id v hcvnd he
        refine ⟨Call.removeView v, ⟨v.id, ?_, ?_⟩, rfl⟩
        · unfold QHash.keys
          rw [(env.keysOrder.perm _).mem_iff]
          exact List.mem_map.2 ⟨(v.id, v), he, rfl⟩
        · rw [hval, if_pos hst]
    rw [hcut]
  · intro v
    rw [hupd, save_updateViewArgs, List.mem_filter]
    simp

/-- C5 at an original table with three created views and a current table in
which the first was renamed, the second was cut and the third was removed. -/
theorem save_removeView_updateView_witness :
    (∀ v, Call.removeView v ∈ (save exampleSaveEnv
          [mkView "1" "A" State.IsCreated, mkView "2" "B" State.IsCreated,
            mkView "3" "C" State.IsCreated]
          [mkView "1" "A2" State.IsCreated,
            { mkView "2" "B" State.IsCreated with isMoveOrigin := true }]).calls ↔
      (v ∈ subtracted
          [mkView "1" "A" State.IsCreated, mkView "2" "B" State.IsCreated,
            mkView "3" "C" State.IsCreated]
          [mkView "1" "A2" State.IsCreated,
            { mkView "2" "B" State.IsCreated with isMoveOrigin := true }] ∨
        ((v ∈ newViews
            [mkView "1" "A" State.IsCreated, mkView "2" "B" State.IsCreated,
              mkView "3" "C" State.IsCreated]
            [mkView "1" "A2" State.IsCreated,
              { mkView "2" "B" State.IsCreated with isMoveOrigin := true }] ∨
          v ∈ alteredViews
            [mkView "1" "A" State.IsCreated, mkView "2" "B" State.IsCreated,
              mkView "3" "C" State.IsCreated]
            [mkView "1" "A2" State.IsCreated,
              { mkView "2" "B" State.IsCreated with isMoveOrigin := true }]) ∧
          v.isMoveOrigin = true ∧ v.state = State.IsCreated))) ∧
    (∀ v, Call.updateView v ∈ (save exampleSaveEnv
          [mkView "1" "A" State.IsCreated, mkView "2" "B" State.IsCreated,
            mkView "3" "C" State.IsCreated]
          [mkView "1" "A2" State.IsCreated,
            { mkView "2" "B" State.IsCreated with isMoveOrigin := true }]).calls ↔
      (v ∈ alteredViews
          [mkView "1" "A" State.IsCreated, mkView "2" "B" State.IsCreated,
            mkView "3" "C" State.IsCreated]
          [mkView "1" "A2" State.IsCreated,
            { mkView "2" "B" State.IsCreated with isMoveOrigin := true }] ∧
        v.state = State.IsCreated ∧ v.isMoveOrigin = false)) :=
  save_removeView_updateView exampleSaveEnv
    [mkView "1" "A" State.IsCreated, mkView "2" "B" State.IsCreated,
      mkView "3" "C" State.IsCreated]
    [mkView "1" "A2" State.IsCreated,
      { mkView "2" "B" State.IsCreated with isMoveOrigin := true }] (by decide)

/-! ## Removing the selected views -/

theorem currentData_id (t : ViewsTable) (vid : QString) (h : vid ∈ t.map View.id) :
    (currentData t vid).id = vid := by
  induction t with
  | nil => simp at h
  | cons r t ih =>
    unfold currentData
    rw [List.find?_cons]
    by_cases hr : r.id = vid
    · have : (r.id == vid) = true := by simpa using hr
      rw [this]; exact hr
    · have : (r.id == vid) = false := by simpa using hr
      rw [this]
      rw [List.map_cons, List.mem_cons] at h
      rcases h with h | h
      · exact absurd h.symm hr
      · exact ih h

theorem foldl_removeView (vs : List View) :
    ∀ t : ViewsTable,
      vs.foldl (fun t v => removeView t v.id) t =
        t.filter (fun r => decide (r.id ∉ vs.map View.id)) := by
  induction vs with
  | nil => intro t; simp
  | cons v vs ih =>
    intro t
    rw [List.foldl_cons, ih]
    unfold removeView
    rw [List.filter_filter]
    congr 1
    funext r
    by_cases h1 : r.id = v.id <;> by_cases h2 : r.id ∈ vs.map View.id <;> simp [h1, h2]

theorem selectedViewsCurrentData_ids (d : Views)
    (hin : ∀ sid ∈ d.selection, sid ∈ d.current.map View.id) :
    (selectedViewsCurrentData d).map View.id = d.selection := by
  unfold selectedViewsCurrentData
  by_cases hs : hasSelectedView d = true
  · simp only [hs, Bool.not_true, Bool.false_eq_true, if_false, List.map_map]
    conv_rhs => rw [← List.map_id d.selection]
    apply List.map_congr_left
    intro sid hsid
    exact currentData_id d.current sid (hin sid hsid)
  · have hnil : d.selection = [] := by
      cases hsel : d.selection with
      | nil => rfl
      | cons a l => simp [hasSelectedView, hsel] at hs
    simp [hs, hnil]

/-- C7, amended. For a non-empty selection of rows of the current table,
`removeSelectedViews` removes exactly the selected rows and then selects row
`max(0, min(newRowCount - 1, h))`, where `h` is the row of the view that the
selection lists first; when the selection is listed by ascending row, `h` is
the smallest removed row; and the selected row is a row of the resulting
table when that table is not empty. -/
theorem removeSelectedViews_spec (d : Views) (hsel : d.selection ≠ [])
    (hin : ∀ sid ∈ d.selection, sid ∈ d.current.map View.id) :
    (removeSelectedViews d).1.current =
      d.current.filter (fun r => decide (r.id ∉ d.selection)) ∧
    (removeSelectedViews d).2 =
      some (max 0 (min (((removeSelectedViews d).1.current.length : Int) - 1)
        (rowForId d.current (d.selection.headD [])))) ∧
    (List.Pairwise (fun a b => a ≤ b) (d.selection.map (rowForId d.current)) →
      ∀ sid ∈ d.selection,
        rowForId d.current (d.selection.headD []) ≤ rowForId d.current sid) ∧
    ((removeSelectedViews d).1.current ≠ [] →
      ∃ row, (removeSelectedViews d).2 = some row ∧ 0 ≤ row ∧
        row < ((removeSelectedViews d).1.current.length : Int)) := by
  have hhas : hasSelectedView d = true := by
    cases hs : d.selection with
    | nil => exact absurd hs hsel
    | cons a l => simp [hasSelectedView, hs]
  have hids := selectedViewsCurrentData_ids d hin
  have hhead : ((selectedViewsCurrentData d).headD default).id = d.selection.headD [] := by
    cases hs : d.selection with
    | nil => exact absurd hs hsel
    | cons a l =>
      rw [hs] at hids
      cases hv : selectedViewsCurrentData d with
      | nil => rw [hv] at hids; simp at hids
      | cons v vs =>
        rw [hv] at hids
        simp only [List.map_cons, List.cons.injEq] at hids
        simpa using hids.1
  have hcur : (removeSelectedViews d).1.current =
      d.current.filter (fun r => decide (r.id ∉ d.selection)) := by
    simp only [removeSelectedViews, hhas, Bool.not_true, Bool.false_eq_true, if_false]
    rw [foldl_removeView, hids]
  have hrow : (removeSelectedViews d).2 =
      some (max 0 (min (((removeSelectedViews d).1.current.length : Int) - 1)
        (rowForId d.current (d.selection.headD [])))) := by
    simp only [removeSelectedViews, hhas, Bool.not_true, Bool.false_eq_true, if_false, qBound,
      hhead]
  refine ⟨hcur, hrow, ?_, ?_⟩
  · intro hsorted sid hsid
    cases hs : d.selection with
    | nil => exact absurd hs hsel
    | cons a l =>
      rw [hs] at hsorted hsid
      simp only [List.map_cons, List.pairwise_cons] at hsorted
      simp only [List.headD_cons]
      rcases List.mem_cons.1 hsid with rfl | hl
      · exact le_refl _
      · exact hsorted.1 _ (List.mem_map.2 ⟨sid, hl, rfl⟩)
  · intro hne
    refine ⟨_, hrow, le_max_left _ _, ?_⟩
    have hpos : 0 < (removeSelectedViews d).1.current.length := List.length_pos.2 hne
    have h1 : min (((removeSelectedViews d).1.current.length : Int) - 1)
        (rowForId d.current (d.selection.headD [])) ≤
        ((removeSelectedViews d).1.current.length : Int) - 1 := min_le_left _ _
    rw [max_lt_iff]
    constructor <;> omega

/-- The amended C7 at six rows of which rows 2 and 5 are selected, in this
order: the rows left are 0, 1, 3, 4 and row 2 is selected. -/
theorem removeSelectedViews_spec_witness :
    ((removeSelectedViews (sixSelected ["2".toList, "5".toList])).1.current =
      sixViews.filter (fun r => decide (r.id ∉ ["2".toList, "5".toList])) ∧
    (removeSelectedViews (sixSelected ["2".toList, "5".toList])).2 =
      some (max 0 (min (((removeSelectedViews (sixSelected ["2".toList, "5".toList])).1.current.length : Int) - 1)
        (rowForId sixViews (["2".toList, "5".toList].headD [])))) ∧
    (List.Pairwise (fun a b => a ≤ b) (["2".toList, "5".toList].map (rowForId sixViews)) →
      ∀ sid ∈ ["2".toList, "5".toList],
        rowForId sixViews (["2".toList, "5".toList].headD []) ≤ rowForId sixViews sid) ∧
    ((removeSelectedViews (sixSelected ["2".toList, "5".toList])).1.current ≠ [] →
      ∃ row, (removeSelectedViews (sixSelected ["2".toList, "5".toList])).2 = some row ∧ 0 ≤ row ∧
        row < ((removeSelectedViews (sixSelected ["2".toList, "5".toList])).1.current.length : Int))) ∧
    (removeSelectedViews (sixSelected ["2".toList, "5".toList])).2 = some 2 :=
  ⟨removeSelectedViews_spec (sixSelected ["2".toList, "5".toList]) (by decide) (by decide),
    by decide⟩

/-- C7 as stated fails. Of six rows, rows 5 and 2 are selected in this order:
the smallest removed row is 2 and four rows are left, so the claim selects row
2, and `removeSelectedViews` selects row 3. Of one row, that row is selected:
no row is left and `removeSelectedViews` selects row 0, which the table does
not have. -/
theorem removeSelectedViews_counterexample :
    ((removeSelectedViews (sixSelected ["5".toList, "2".toList])).2 = some 3 ∧
      (removeSelectedViews (sixSelected ["5".toList, "2".toList])).1.current.length = 4 ∧
      rowForId sixViews "2".toList = 2 ∧ rowForId sixViews "5".toList = 5) ∧
    ((removeSelectedViews (oneSelected)).2 = some 0 ∧
      (removeSelectedViews (oneSelected)).1.current = []) := by
  refine ⟨⟨by decide, by decide, by decide, by decide⟩, by decide, by decide⟩

/-! ## Counting the views to remove -/

theorem subtracted_self (t : ViewsTable) : subtracted t t = [] := by
  unfold subtracted
  rw [List.filter_eq_nil_iff]
  intro r hr
  have : containsId t r.id = true := (containsId_iff t r.id).2 (List.mem_map.2 ⟨r, hr, rfl⟩)
  simp [this]

theorem subtracted_length (t rhs : ViewsTable) :
    (subtracted t rhs).length +
      ((t.map View.id).filter (fun k => decide (k ∈ rhs.map View.id))).length = t.length := by
  induction t with
  | nil => rfl
  | cons r t ih =>
    unfold subtracted at ih ⊢
    by_cases h : r.id ∈ rhs.map View.id
    · have hc : containsId rhs r.id = true := (containsId_iff rhs r.id).2 h
      simp only [List.map_cons, List.filter_cons, hc, Bool.not_true, Bool.false_eq_true,
        if_false, decide_eq_true h, if_true, List.length_cons]
      omega
    · have hc : containsId rhs r.id = false := by
        rw [Bool.eq_false_iff]
        exact fun hh => h ((containsId_iff rhs r.id).1 hh)
      simp only [List.map_cons, List.filter_cons, hc, Bool.not_false, if_true,
        decide_eq_false h, Bool.false_eq_true, if_false, List.length_cons]
      omega

theorem viewsForRemovalCount_eq (d : Views) :
    viewsForRemovalCount d = ((subtracted d.original d.current).length : Int) := by
  unfold viewsForRemovalCount hasChangedData
  by_cases h : d.original = d.current
  · simp [h, subtracted_self]
  · simp [h]

/-- C8. `viewsForRemovalCount` is 0 when the original and the current table
are equal; it always is the number of rows of the original table whose id is
not an id of the current table, which is the number of original ids minus the
number of original ids that are current ids too; it is at least 0 and at most
the number of original rows; and it is the same for two current tables that
have the same ids of the original table, whatever other rows they have. -/
theorem viewsForRemovalCount_spec (d : Views) :
    (d.original = d.current → viewsForRemovalCount d = 0) ∧
    viewsForRemovalCount d =
      ((d.original.filter (fun r => decide (r.id ∉ d.current.map View.id))).length : Int) ∧
    viewsForRemovalCount d =
      ((d.original.map View.id).length : Int) -
        (((d.original.map View.id).filter
          (fun k => decide (k ∈ d.current.map View.id))).length : Int) ∧
    0 ≤ viewsForRemovalCount d ∧ viewsForRemovalCount d ≤ (d.original.length : Int) ∧
    (∀ d2 : Views, d2.original = d.original →
      (∀ k ∈ d.original.map View.id, k ∈ d2.current.map View.id ↔ k ∈ d.current.map View.id) →
      viewsForRemovalCount d2 = viewsForRemovalCount d) := by
  have hfilter : ∀ cur : ViewsTable, subtracted d.original cur =
      d.original.filter (fun r => decide (r.id ∉ cur.map View.id)) := by
    intro cur
    unfold subtracted
    apply List.filter_congr
    intro r _
    by_cases h : r.id ∈ cur.map View.id
    · have hc : containsId cur r.id = true := (containsId_iff cur r.id).2 h
      simp only [hc, Bool.not_true]
      exact (decide_eq_false (not_not.2 h)).symm
    · have hc : containsId cur r.id = false := by
        rw [Bool.eq_false_iff]
        exact fun hh => h ((containsId_iff cur r.id).1 hh)
      simp only [hc, Bool.not_false]
      exact (decide_eq_true h).symm
  have hlen := subtracted_length d.original d.current
  refine ⟨?_, ?_, ?_, ?_, ?_, ?_⟩
  · intro h
    rw [viewsForRemovalCount_eq, h, subtracted_self]
    rfl
  · rw [viewsForRemovalCount_eq, hfilter]
  · rw [viewsForRemovalCount_eq, List.length_map]
    omega
  · rw [viewsForRemovalCount_eq]
    omega
  · rw [viewsForRemovalCount_eq]
    omega
  · intro d2 ho hk
    rw [viewsForRemovalCount_eq, viewsForRemovalCount_eq, ho, hfilter, hfilter]
    congr 2
    apply List.filter_congr
    intro r hr
    have := hk r.id (List.mem_map.2 ⟨r, hr, rfl⟩)
    simp only [this]

/-- C8 at an original table of three views of which the current table keeps
one: two views are to be removed. -/
theorem viewsForRemovalCount_spec_witness :
    viewsForRemovalCount threeOriginalTwoCurrent = 2 ∧
    ((threeOriginalTwoCurrent.original = threeOriginalTwoCurrent.current →
      viewsForRemovalCount threeOriginalTwoCurrent = 0) ∧
    viewsForRemovalCount threeOriginalTwoCurrent =
      ((threeOriginalTwoCurrent.original.filter
        (fun r => decide (r.id ∉ threeOriginalTwoCurrent.current.map View.id))).length : Int) ∧
    viewsForRemovalCount threeOriginalTwoCurrent =
      ((threeOriginalTwoCurrent.original.map View.id).length : Int) -
        (((threeOriginalTwoCurrent.original.map View.id).filter
          (fun k => decide (k ∈ threeOriginalTwoCurrent.current.map View.id))).length : Int) ∧
    0 ≤ viewsForRemovalCount threeOriginalTwoCurrent ∧
    viewsForRemovalCount threeOriginalTwoCurrent ≤
      (threeOriginalTwoCurrent.original.length : Int) ∧
    (∀ d2 : Views, d2.original = threeOriginalTwoCurrent.original →
      (∀ k ∈ threeOriginalTwoCurrent.original.map View.id,
        k ∈ d2.current.map View.id ↔ k ∈ threeOriginalTwoCurrent.current.map View.id) →
      viewsForRemovalCount d2 = viewsForRemovalCount threeOriginalTwoCurrent)) :=
  ⟨by decide, viewsForRemovalCount_spec threeOriginalTwoCurrent⟩

/-! ## The clipboard snapshot -/

theorem foldl_clipboardStep (env : Env) (rows : List View) :
    ∀ acc : ViewsTable,
      rows.foldl (clipboardStep env) acc =
        acc ++ (rows.filter (fun r => decide (r.state = State.IsCreated ∨
            r.state = State.OriginFromViewTemplate ∨ r.state = State.OriginFromLayout))).map
          (fun r =>
            if r.state = State.IsCreated then
              { r with state := State.OriginFromLayout,
                       originFile := env.storedView env.layoutId r.id,
                       originLayout := env.layoutId, originView := r.id, isActive := false }
            else { r with isActive := false }) := by
  induction rows with
  | nil => intro acc; simp
  | cons row rows ih =>
    intro acc
    rw [List.foldl_cons, ih]
    by_cases hc : row.state = State.IsCreated
    · simp [clipboardStep, hc, View.setState]
    · by_cases ht : row.state = State.OriginFromViewTemplate
      · simp [clipboardStep, hc, ht]
      · by_cases hl : row.state = State.OriginFromLayout
        · simp [clipboardStep, hc, hl]
        · simp [clipboardStep, hc, ht, hl]

/-- C9. The clipboard snapshot of a selection has, in selection order, one
entry for each selected row whose state is `IsCreated`,
`OriginFromViewTemplate` or `OriginFromLayout`, and no other entry. The entry
of an `IsCreated` row is the row with `isActive` false and the state
`OriginFromLayout` carrying the path `storedView(layout id, view id)`, the
layout id and the view id; the entry of a row in one of the other two states
is the row with `isActive` false. Every entry has `isActive` false. -/
theorem selectedViewsForClipboard_spec (env : Env) (d : Views) :
    selectedViewsForClipboard env d =
      ((selectedViewsCurrentData d).filter (fun r => decide (r.state = State.IsCreated ∨
          r.state = State.OriginFromViewTemplate ∨ r.state = State.OriginFromLayout))).map
        (fun r =>
          if r.state = State.IsCreated then
            { r with state := State.OriginFromLayout,
                     originFile := env.storedView env.layoutId r.id,
                     originLayout := env.layoutId, originView := r.id, isActive := false }
          else { r with isActive := false }) ∧
    (∀ e ∈ selectedViewsForClipboard env d, e.isActive = false) ∧
    selectedViewsCurrentData d = d.selection.map (currentData d.current) := by
  have hdata : selectedViewsCurrentData d = d.selection.map (currentData d.current) := by
    unfold selectedViewsCurrentData
    by_cases hs : hasSelectedView d = true
    · simp [hs]
    · have hnil : d.selection = [] := by
        cases hsel : d.selection with
        | nil => rfl
        | cons a l => simp [hasSelectedView, hsel] at hs
      simp [hs, hnil]
  have hsnap : selectedViewsForClipboard env d =
      ((selectedViewsCurrentData d).filter (fun r => decide (r.state = State.IsCreated ∨
          r.state = State.OriginFromViewTemplate ∨ r.state = State.OriginFromLayout))).map
        (fun r =>
          if r.state = State.IsCreated then
            { r with state := State.OriginFromLayout,
                     originFile := env.storedView env.layoutId r.id,
                     originLayout := env.layoutId, originView := r.id, isActive := false }
          else { r with isActive := false }) := by
    unfold selectedViewsForClipboard
    by_cases hs : hasSelectedView d = true
    · simp only [hs, Bool.not_true, Bool.false_eq_true, if_false]
      rw [foldl_clipboardStep]
      simp
    · have hnil : d.selection = [] := by
        cases hsel : d.selection with
        | nil => rfl
        | cons a l => simp [hasSelectedView, hsel] at hs
      simp [hs, hdata, hnil]
  refine ⟨hsnap, ?_, hdata⟩
  intro e he
  rw [hsnap, List.mem_map] at he
  obtain ⟨r, _, rfl⟩ := he
  split <;> rfl

/-- C9 at a selection of a created view and of a pending view from a view
template: the snapshot has one entry for each, in this order. -/
theorem selectedViewsForClipboard_spec_witness :
    selectedViewsForClipboard exampleEnv threeOriginalTwoCurrent =
      [{ mkView "1" "A2" State.OriginFromLayout with
          originFile := "1".toList, originLayout := "L".toList, originView := "1".toList },
        mkView "t1" "D" State.OriginFromViewTemplate] ∧
    (selectedViewsForClipboard exampleEnv threeOriginalTwoCurrent =
      ((selectedViewsCurrentData threeOriginalTwoCurrent).filter
        (fun r => decide (r.state = State.IsCreated ∨
          r.state = State.OriginFromViewTemplate ∨ r.state = State.OriginFromLayout))).map
        (fun r =>
          if r.state = State.IsCreated then
            { r with state := State.OriginFromLayout,
                     originFile := exampleEnv.storedView exampleEnv.layoutId r.id,
                     originLayout := exampleEnv.layoutId, originView := r.id, isActive := false }
          else { r with isActive := false }) ∧
    (∀ e ∈ selectedViewsForClipboard exampleEnv threeOriginalTwoCurrent, e.isActive = false) ∧
    selectedViewsCurrentData threeOriginalTwoCurrent =
      threeOriginalTwoCurrent.selection.map (currentData threeOriginalTwoCurrent.current)) :=
  ⟨by decide, selectedViewsForClipboard_spec exampleEnv threeOriginalTwoCurrent⟩

/-! ## Duplicating the selected views -/

theorem pasteLoop_append (env : Env) (xs ys : List View) :
    ∀ t : ViewsTable,
      pasteLoop env (xs ++ ys) t = (pasteLoop env xs t).bind (pasteLoop env ys) := by
  induction xs with
  | nil => intro t; simp [pasteLoop]
  | cons x xs ih =>
    intro t
    simp only [List.cons_append, pasteLoop]
    cases appendViewFromViewTemplate env t x with
    | none => rfl
    | some p => exact ih p.2

theorem pasteLoop_foldl_clipboardStep (env : Env) (rows : List View) :
    ∀ (acc : List View) (t : ViewsTable),
      pasteLoop env (rows.foldl (clipboardStep env) acc) t =
        (pasteLoop env acc t).bind (duplicateLoop env rows) := by
  induction rows with
  | nil =>
    intro acc t
    cases h : pasteLoop env acc t <;> simp [duplicateLoop, h]
  | cons row rows ih =>
    intro acc t
    rw [List.foldl_cons, ih]
    by_cases hc : row.state = State.IsCreated
    · simp only [clipboardStep, hc, if_true]
      rw [pasteLoop_append, Option.bind_assoc]
      congr 1
      funext t1
      simp only [duplicateLoop, hc, if_true, pasteLoop]
      cases appendViewFromViewTemplate env t1 _ with
      | none => rfl
      | some p => rfl
    · by_cases hl : row.state = State.OriginFromViewTemplate ∨ row.state = State.OriginFromLayout
      · simp only [clipboardStep, hc, hl, if_true, if_false]
        rw [pasteLoop_append, Option.bind_assoc]
        congr 1
        funext t1
        simp only [duplicateLoop, hc, hl, if_true, if_false, pasteLoop]
        cases appendViewFromViewTemplate env t1 _ with
        | none => rfl
        | some p => rfl
      · simp only [clipboardStep, hc, hl, if_false]
        congr 1
        funext t1
        simp only [duplicateLoop, hc, hl, if_false]

/-- C10, amended. `duplicateSelectedViews` returns and leaves the clipboard
contents as they were; and for a non-empty selection the current table after
it is the current table after `copySelectedViews` followed by
`pasteSelectedViews`. -/
theorem duplicate_eq_copy_paste (env : Env) (d : Views) :
    ∃ d1, duplicateSelectedViews env d = some d1 ∧ d1.clipboard = d.clipboard ∧
      (d.selection ≠ [] →
        ∃ d2, pasteSelectedViews env (copySelectedViews env d) = some d2 ∧
          d1.current = d2.current) := by
  by_cases hs : hasSelectedView d = true
  · have hcopy : copySelectedViews env d =
        { d with clipboard := selectedViewsForClipboard env d } := by
      simp [copySelectedViews, hs]
    have hsnap : selectedViewsForClipboard env d =
        (selectedViewsCurrentData d).foldl (clipboardStep env) [] := by
      simp [selectedViewsForClipboard, hs]
    have hloop := pasteLoop_foldl_clipboardStep env (selectedViewsCurrentData d) [] d.current
    rw [← hsnap] at hloop
    simp only [pasteLoop, Option.some_bind] at hloop
    obtain ⟨pasted, hp, _⟩ := pasteLoop_spec env (selectedViewsForClipboard env d) d.current
    refine ⟨{ d with current := d.current ++ pasted }, ?_, rfl, ?_⟩
    · simp only [duplicateSelectedViews, hs, Bool.not_true, Bool.false_eq_true, if_false]
      rw [← hloop, hp]
    · intro _
      refine ⟨{ d with current := d.current ++ pasted,
                       clipboard := selectedViewsForClipboard env d }, ?_, rfl⟩
      rw [hcopy]
      simp only [pasteSelectedViews]
      rw [hp]
  · have hnil : d.selection = [] := by
      cases hsel : d.selection with
      | nil => rfl
      | cons a l => simp [hasSelectedView, hsel] at hs
    refine ⟨d, ?_, rfl, fun h => absurd hnil h⟩
    simp [duplicateSelectedViews, hs]

/-- The amended C10 at a table of two views of which the first is selected. -/
theorem duplicate_eq_copy_paste_witness :
    twoViewsFirstSelected.selection ≠ [] ∧
    ∃ d1, duplicateSelectedViews exampleEnv twoViewsFirstSelected = some d1 ∧
      d1.clipboard = twoViewsFirstSelected.clipboard ∧
      (twoViewsFirstSelected.selection ≠ [] →
        ∃ d2, pasteSelectedViews exampleEnv
            (copySelectedViews exampleEnv twoViewsFirstSelected) = some d2 ∧
          d1.current = d2.current) :=
  ⟨by decide, duplicate_eq_copy_paste exampleEnv twoViewsFirstSelected⟩

/-- C10 as stated fails. With no row selected and one view in the clipboard,
`duplicateSelectedViews` leaves the empty table empty, while
`copySelectedViews` does nothing and `pasteSelectedViews` then appends the
view of the clipboard. -/
theorem duplicate_counterexample :
    (∃ d1, duplicateSelectedViews exampleEnv nothingSelected = some d1 ∧ d1.current = []) ∧
    (∃ d2, pasteSelectedViews exampleEnv (copySelectedViews exampleEnv nothingSelected) =
        some d2 ∧ d2.current.length = 1) :=
  ⟨⟨_, rfl, rfl⟩, ⟨_, rfl, by decide⟩⟩

/-! ## `uniqueViewName` twice -/

/-- With more fuel than the table has names, `uniqueViewName` returns on any
name: the empty name stays empty, any other name becomes a non-empty name
that the table does not have. -/
theorem uniqueViewNameFuel_fresh (fuel : Nat) (names : List QString) (name : QString)
    (hf : names.length < fuel) :
    ∃ r, uniqueViewNameFuel fuel names name = some r ∧
      (name = [] → r = []) ∧ (name ≠ [] → r ∉ names ∧ r ≠ []) := by
  by_cases hne : name = []
  · subst hne
    exact ⟨[], rfl, fun _ => rfl, fun h => absurd rfl h⟩
  · by_cases hin : name ∈ names
    · rw [uniqueViewNameFuel_of_present _ names name hne hin]
      obtain ⟨r, hr⟩ := uniqueLoop_isSome names (baseName name) fuel hf
      refine ⟨r, hr, fun h => absurd h hne, fun _ => ?_⟩
      rcases uniqueLoop_some names _ _ _ _ r hr with ⟨hn, hreq⟩ | ⟨_, k, _, hk, hn, _⟩
      · exact ⟨hreq ▸ hn, hreq ▸ baseName_ne_nil name hne⟩
      · exact ⟨hn, hk ▸ candidate_ne_nil _ k⟩
    · obtain ⟨f, rfl⟩ : ∃ f, fuel = f + 1 := ⟨fuel - 1, by omega⟩
      rw [uniqueViewNameFuel_of_absent _ names name hne hin]
      exact ⟨name, rfl, fun h => absurd h hne, fun _ => ⟨hin, hne⟩⟩

/-- C11. Against a fixed table, with any fuel above the number of its names
(as `uniqueViewName` has): `uniqueViewName` returns on every name `n`, and on
the name it returns it returns that same name again; and on a name `n` that
the table does not have it returns `n` itself, nothing stripped and nothing
added. -/
theorem uniqueViewName_idempotent (names : List QString) (n : QString) (fuel : Nat)
    (hf : names.length < fuel) :
    (∃ r, uniqueViewNameFuel fuel names n = some r ∧
      uniqueViewNameFuel fuel names r = some r) ∧
    (n ∉ names → uniqueViewNameFuel fuel names n = some n) ∧
    uniqueViewName names n = uniqueViewNameFuel (names.length + 1) names n := by
  obtain ⟨f, rfl⟩ : ∃ f, fuel = f + 1 := ⟨fuel - 1, by omega⟩
  have hfresh : ∀ m : QString, m ∉ names → uniqueViewNameFuel (f + 1) names m = some m := by
    intro m hm
    by_cases hm0 : m = []
    · subst hm0; rfl
    · exact uniqueViewNameFuel_of_absent f names m hm0 hm
  obtain ⟨r, hr, h1, h2⟩ := uniqueViewNameFuel_fresh (f + 1) names n hf
  refine ⟨⟨r, hr, ?_⟩, hfresh n, rfl⟩
  by_cases hn0 : n = []
  · rw [h1 hn0]; rfl
  · exact hfresh r (h2 hn0).1

/-- C11 at the table `Dock`, `Dock - 2`: the name `Dock - 7`, which the table
does not have, comes back as it is. -/
theorem uniqueViewName_idempotent_witness :
    "Dock - 7".toList ∉ ["Dock".toList, "Dock - 2".toList] ∧
    ((∃ r, uniqueViewNameFuel 3 ["Dock".toList, "Dock - 2".toList] "Dock - 7".toList = some r ∧
      uniqueViewNameFuel 3 ["Dock".toList, "Dock - 2".toList] r = some r) ∧
    ("Dock - 7".toList ∉ ["Dock".toList, "Dock - 2".toList] →
      uniqueViewNameFuel 3 ["Dock".toList, "Dock - 2".toList] "Dock - 7".toList =
        some "Dock - 7".toList) ∧
    uniqueViewName ["Dock".toList, "Dock - 2".toList] "Dock - 7".toList =
      uniqueViewNameFuel (["Dock".toList, "Dock - 2".toList].length + 1)
        ["Dock".toList, "Dock - 2".toList] "Dock - 7".toList) :=
  ⟨by decide,
    uniqueViewName_idempotent ["Dock".toList, "Dock - 2".toList] "Dock - 7".toList 3
      (by decide)⟩

/-! ## The background picker -/

theorem foldl_addItem_items (colors : List QString) :
    ∀ cb : QComboBox,
      (colors.foldl (fun editor color => if color ≠ sepia then editor.addItem color else editor)
        cb).items = cb.items ++ colors.filter (fun c => decide (c ≠ sepia)) := by
  induction colors with
  | nil => intro cb; simp
  | cons c cs ih =>
    intro cb
    rw [List.foldl_cons, ih]
    by_cases hc : c = sepia
    · simp [hc]
    · simp [hc, QComboBox.addItem]

/-- The items of the editor: the colours other than `sepia`, in order, and
then the value when it is a path. -/
theorem createEditor_items (colors : List QString) (value : QString) :
    (createEditor colors value).items =
      colors.filter (fun c => decide (c ≠ sepia)) ++
        (if startsWithSlash value = true then [value] else []) := by
  have h := foldl_addItem_items colors QComboBox.empty
  have h0 : QComboBox.empty.items = [] := rfl
  rw [h0, List.nil_append] at h
  unfold createEditor
  by_cases hp : startsWithSlash value = true
  · simp only [hp, if_true]
    show (colors.foldl (fun editor color =>
      if color ≠ sepia then editor.addItem color else editor) QComboBox.empty).items ++
        [value] = _
    rw [h]
  · simp only [hp, Bool.false_eq_true, if_false, h, List.append_nil]

theorem indexOfFrom_not_mem (value : QString) (l : List QString) (h : value ∉ l) :
    ∀ i : Nat, indexOfFrom value l i = -1 := by
  induction l with
  | nil => intro i; rfl
  | cons c cs ih =>
    intro i
    rw [List.mem_cons, not_or] at h
    unfold indexOfFrom
    rw [if_neg (fun hc => h.1 hc.symm)]
    exact ih h.2 (i + 1)

theorem indexOfFrom_mem (value : QString) (l : List QString) (h : value ∈ l) :
    ∀ i : Nat, ∃ k : Nat, k < l.length ∧ indexOfFrom value l i = ((i + k : Nat) : Int) ∧
      l[k]? = some value := by
  induction l with
  | nil => simp at h
  | cons c cs ih =>
    intro i
    unfold indexOfFrom
    by_cases hc : c = value
    · exact ⟨0, by simp, by simp [hc], by simp [hc]⟩
    · rw [if_neg hc]
      have hin : value ∈ cs := by
        rcases List.mem_cons.1 h with h1 | h1
        · exact absurd h1.symm hc
        · exact h1
      obtain ⟨k, hk, hidx, hget⟩ := ih hin (i + 1)
      refine ⟨k + 1, by simp [hk], ?_, by simpa using hget⟩
      rw [hidx]
      congr 1
      omega

theorem currentText_setCurrentIndex (cb : QComboBox) (k : Nat) (text : QString)
    (h : cb.items[k]? = some text) :
    (cb.setCurrentIndex (k : Int)).currentText = text := by
  have hk : k < cb.items.length := by
    by_contra hge
    rw [List.getElem?_eq_none (by omega)] at h
    cases h
  unfold QComboBox.setCurrentIndex QComboBox.currentText
  have h1 : (0 : Int) ≤ (k : Int) ∧ (k : Int) < (cb.items.length : Int) := by omega
  simp only [h1, and_self, if_true]
  have h2 : ¬ ((k : Int) < 0) := by omega
  rw [if_neg h2]
  simp [h]

/-- When the colour list does not have `sepia`, the round trip holds: for a
value that is a colour of the list or a path, the editor has an item with the
text of the value and the round trip writes the value back. -/
theorem editorRoundTrip_of_no_sepia (colors : List QString) (value : QString)
    (hs : sepia ∉ colors) (hv : value ∈ colors ∨ startsWithSlash value = true) :
    value ∈ (createEditor colors value).items ∧ editorRoundTrip colors value = value := by
  have hfilter : colors.filter (fun c => decide (c ≠ sepia)) = colors := by
    rw [List.filter_eq_self]
    intro c hc
    exact decide_eq_true (fun h => hs (h ▸ hc))
  have hitems := createEditor_items colors value
  rw [hfilter] at hitems
  constructor
  · rw [hitems]
    rcases hv with h | h
    · exact List.mem_append_left _ h
    · simp [h]
  · unfold editorRoundTrip setModelData setEditorData
    by_cases hin : value ∈ colors
    · obtain ⟨k, hk, hidx, hget⟩ := indexOfFrom_mem value colors hin 0
      have hpos : indexOf colors value = (k : Int) := by
        unfold indexOf; rw [hidx]; simp
      have hne : ¬ (indexOf colors value = -1 ∧ startsWithSlash value = true) := by
        rw [hpos]; intro h; omega
      simp only [hne, if_false, hpos]
      apply currentText_setCurrentIndex
      rw [hitems, List.getElem?_append_left hk]
      exact hget
    · have hp : startsWithSlash value = true := by
        rcases hv with h | h
        · exact absurd h hin
        · exact h
      have hpos : indexOf colors value = -1 := indexOfFrom_not_mem value colors hin 0
      simp only [hpos, hp, and_self, if_true]
      apply currentText_setCurrentIndex
      rw [hitems]
      simp [hp]

/-- C12 fails on the code. With the colours `sepia`, `blue`, `red` and the
cell value `blue`, the editor has the items `blue`, `red`; `setEditorData`
selects index 1, the index of `blue` among the colours, where the editor has
`red`; `setModelData` writes `red`. With the colours `blue`, `red`, `sepia`
and a path as the cell value, the editor has the path at index 2;
`setEditorData` selects index 3, which the editor does not have, and
`setModelData` writes the empty text. -/
theorem editorRoundTrip_sepia :
    ((createEditor ["sepia".toList, "blue".toList, "red".toList] "blue".toList).items =
        ["blue".toList, "red".toList] ∧
      indexOf ["sepia".toList, "blue".toList, "red".toList] "blue".toList = 1 ∧
      (setEditorData ["sepia".toList, "blue".toList, "red".toList]
        (createEditor ["sepia".toList, "blue".toList, "red".toList] "blue".toList)
        "blue".toList).currentIndex = 1 ∧
      editorRoundTrip ["sepia".toList, "blue".toList, "red".toList] "blue".toList =
        "red".toList) ∧
    ((createEditor ["blue".toList, "red".toList, "sepia".toList] "/bg.png".toList).items =
        ["blue".toList, "red".toList, "/bg.png".toList] ∧
      (setEditorData ["blue".toList, "red".toList, "sepia".toList]
        (createEditor ["blue".toList, "red".toList, "sepia".toList] "/bg.png".toList)
        "/bg.png".toList).currentIndex = -1 ∧
      editorRoundTrip ["blue".toList, "red".toList, "sepia".toList] "/bg.png".toList = []) := by
  refine ⟨⟨by decide, by decide, by decide, by decide⟩, by decide, by decide, by decide⟩

/-! ## Cut, then paste -/

end Latte
